import Mathlib

/-!
NanoRange: `merge` and `stable_partition`.

A shallow embedding of `include/nanorange/algorithm/stable_partition.hpp` and
`include/nanorange/algorithm/merge.hpp`, and the properties of the two algorithms.

Stable partition.  The sequence is a `List α`; a position (iterator) is the index of an
element, the past-the-end position is `xs.length`.  The C++ code mutates the sequence in
place, so every function takes the current sequence and returns the new one together with
its result.  An operation that C++ leaves undefined (reading a position that holds no
element, stepping outside `[begin, end]`, rotating an ill-formed range) ends the run with
`Fault.outOfRange`.

Merge.  The inputs are single-pass ranges: a position of an input range is the list of the
elements from that position up to the end of the range, and the end position is `[]`.  The
output position is a number, kept together with the list of everything written through it.
-/

namespace nano

/-! ## Outcomes of a run -/

/-- Ways in which a run of `stable_partition` ends without a result.
`outOfRange`: the code did something C++ leaves undefined on positions.
`fuel`: the recursion budget of the embedding ran out (see `impl_unbuffered`). -/
inductive Fault where
  | outOfRange
  | fuel
  deriving DecidableEq, Repr

/-! ## Sequence primitives used by `stable_partition` -/

/-- The value `*i`: the element at position `i`; a fault when `i` holds no element. -/
def deref {α : Type} (xs : List α) (i : Nat) : Except Fault α :=
  match xs[i]? with
  | some v => .ok v
  | none => .error .outOfRange

/-- Modelled from the spec: `next(pos, n) -> pos`, the position `n` steps after `i`
(`nano::next` is declared outside the two source files).  Stepping beyond the past-the-end
position is a fault. -/
def next {α : Type} (xs : List α) (i : Nat) (n : Nat) : Except Fault Nat :=
  if i + n ≤ xs.length then .ok (i + n) else .error .outOfRange

/-- Modelled from the spec: `prev(pos, n) -> pos` with `n = 1`, the position one step before
`i` (`nano::prev` is declared outside the two source files).  Stepping before `begin` is a
fault. -/
def prev (i : Nat) : Except Fault Nat :=
  match i with
  | 0 => .error .outOfRange
  | k + 1 => .ok k

/-- Modelled from the spec: `swap_at(posA, posB) -> void`, exchanging the elements at two
positions (`nano::iter_swap` is declared outside the two source files).  Both positions must
hold an element. -/
def iter_swap {α : Type} (xs : List α) (i j : Nat) : Except Fault (List α) := do
  let a ← deref xs i
  let b ← deref xs j
  pure ((xs.set i b).set j a)

/-- Modelled from the spec: `distance(begin, end) -> integer_count` (`nano::distance` is
declared outside the two source files). -/
def distance (first last : Nat) : Nat := last - first

/-- Modelled from the spec: `rotate(begin, pivot, end) -> new_pivot_position`
(`nano::rotate` lives in `rotate.hpp`, outside the two source files).  The elements of
`[middle, last)` are moved in front of those of `[first, middle)`, both blocks keeping their
order; the result is the position where the element that was at `first` now sits.
`[first, middle)` and `[middle, last)` must be ranges of the sequence. -/
def rotate {α : Type} (xs : List α) (first middle last : Nat) : Except Fault (List α × Nat) :=
  if first ≤ middle ∧ middle ≤ last ∧ last ≤ xs.length then
    .ok (xs.take first ++ ((xs.drop middle).take (last - middle)
          ++ ((xs.drop first).take (middle - first) ++ xs.drop last)),
         first + (last - middle))
  else .error .outOfRange

/-! ## `stable_partition_fn` -/

namespace stable_partition_fn

/-- The backward scan of `impl_unbuffered` (lines 62-65):
`while (m1 != first && !pred(proj(*m1))) { --len_half; --m1; }`.
Returns the final `(m1, len_half)`. -/
def scan_back {α β : Type} (pred : β → Bool) (proj : α → β) (xs : List α) (first : Nat)
    (m1 len_half : Nat) : Except Fault (Nat × Nat) :=
  if m1 ≠ first then do
    let v ← deref xs m1
    if !pred (proj v) then
      match m1 with
      | 0 => .error .outOfRange
      | k + 1 => scan_back pred proj xs first k (len_half - 1)
    else pure (m1, len_half)
  else pure (m1, len_half)

/-- The forward scan of `impl_unbuffered` (lines 73-77):
`while (pred(proj(*m1))) { if (++m1 == last) return rotate(...); }`.
The first list argument is the part of the sequence from `m1` on (`xs.drop m1`), so that its
head is `*m1`.  Result `none`: the scan reached `last` (the `return` inside the loop is
taken); result `some m1`: the loop ended at `m1`, whose element is predicate-false. -/
def scan_fwd {α β : Type} (pred : β → Bool) (proj : α → β) (last : Nat) :
    List α → Nat → Except Fault (Option Nat)
  | [], _ => .error .outOfRange
  | v :: rest, m1 =>
    if pred (proj v) then
      if m1 + 1 = last then pure none
      else scan_fwd pred proj last rest (m1 + 1)
    else pure (some m1)

/-- The closed-range recursion `impl_unbuffered(first, last, dist, pred, proj)` (lines 29-82).
The first argument bounds the depth of the recursion; `impl` supplies `dist`, each recursive
call receives a smaller `dist`, and the bound is never reached
(`stable_partition_ne_fuel`).  The signed `dist_t` values are natural numbers here: `impl`
passes `dist ≥ 2`, the left call receives `len_half ≥ 2` and the right call
`dist - half ≥ 2`. -/
def impl_unbuffered {α β : Type} (pred : β → Bool) (proj : α → β) :
    Nat → List α → Nat → Nat → Nat → Except Fault (List α × Nat)
  | 0, _, _, _, _ => .error .fuel
  | fuel + 1, xs, first, last, dist =>
    if dist = 2 then do
      let xs ← iter_swap xs first last
      pure (xs, last)
    else if dist = 3 then do
      let middle ← next xs first 1
      let v ← deref xs middle
      if pred (proj v) then do
        let xs ← iter_swap xs first middle
        let xs ← iter_swap xs middle last
        pure (xs, last)
      else do
        let xs ← iter_swap xs middle last
        let xs ← iter_swap xs first middle
        pure (xs, middle)
    else do
      let half := dist / 2
      let middle ← next xs first half
      let m1 ← prev middle
      let (m1, len_half) ← scan_back pred proj xs first m1 half
      let (xs, first_false) ←
        if m1 = first then pure (xs, first)
        else impl_unbuffered pred proj fuel xs first m1 len_half
      let len_half := dist - half
      match ← scan_fwd pred proj last (xs.drop middle) middle with
      | none => rotate xs first_false middle (last + 1)
      | some m1 => do
        let (xs, last_false) ← impl_unbuffered pred proj fuel xs m1 last len_half
        rotate xs first_false middle last_false

/-- The left half of `impl_unbuffered` for `dist > 3` (lines 59-68): the backward scan from
the element before `middle`, and the value of `first_false`, which is `first` when the scan
reaches `first` and the result of the recursive call on `[first, m1]` otherwise. -/
def left_half {α β : Type} (pred : β → Bool) (proj : α → β) (fuel : Nat) (xs : List α)
    (first middle half : Nat) : Except Fault (List α × Nat) := do
  let m1 ← prev middle
  let (m1, len_half) ← scan_back pred proj xs first m1 half
  if m1 = first then pure (xs, first)
  else impl_unbuffered pred proj fuel xs first m1 len_half

/-- The first loop of `impl` (lines 88-96):
`while (true) { if (first == last) return first; if (!pred(proj(*first))) break; ++first; }`.
The list argument is the part of the sequence from `first` on.  Result `Sum.inl r`: `impl`
returns `r`; result `Sum.inr first`: the loop was left by `break` at `first`. -/
def trim_front {α β : Type} (pred : β → Bool) (proj : α → β) (last : Nat) :
    List α → Nat → Except Fault (Nat ⊕ Nat)
  | [], first => if first = last then pure (Sum.inl first) else .error .outOfRange
  | v :: rest, first =>
    if first = last then pure (Sum.inl first)
    else if !pred (proj v) then pure (Sum.inr first)
    else trim_front pred proj last rest (first + 1)

/-- The second loop of `impl` (lines 99-107):
`do { --last; if (last == first) return last; if (pred(proj(*last))) break; } while (true);`.
Result `Sum.inl r`: `impl` returns `r`; result `Sum.inr last`: the loop was left by `break`
at `last`. -/
def trim_back {α β : Type} (pred : β → Bool) (proj : α → β) (xs : List α) (first : Nat) :
    Nat → Except Fault (Nat ⊕ Nat)
  | 0 => .error .outOfRange
  | last + 1 =>
    if last = first then pure (Sum.inl last)
    else do
      let v ← deref xs last
      if pred (proj v) then pure (Sum.inr last)
      else trim_back pred proj xs first last

/-- The function `impl(first, last, pred, proj)` on a bidirectional range (lines 85-112). -/
def impl {α β : Type} (pred : β → Bool) (proj : α → β) (xs : List α) (first last : Nat) :
    Except Fault (List α × Nat) := do
  match ← trim_front pred proj last (xs.drop first) first with
  | Sum.inl r => pure (xs, r)
  | Sum.inr first =>
    match ← trim_back pred proj xs first last with
    | Sum.inl r => pure (xs, r)
    | Sum.inr last =>
      let dist := distance first last + 1
      impl_unbuffered pred proj dist xs first last dist

end stable_partition_fn

/-- The range overload `stable_partition(rng, pred, proj)` (lines 138-142): `impl` on
`[begin, end)`.  The result is the rearranged sequence and the returned boundary. -/
def stable_partition {α β : Type} (pred : β → Bool) (proj : α → β) (xs : List α) :
    Except Fault (List α × Nat) :=
  stable_partition_fn.impl pred proj xs 0 xs.length

/-- The predicate of the examples of the specification. -/
def isEven (n : Nat) : Bool := n % 2 == 0

/-! ## Instrumented run: the invocations of `impl_unbuffered` -/

/-- One invocation `impl_unbuffered(first, last, dist, pred, proj)`: its arguments and the
sequence at the moment of the call. -/
structure Invocation (α : Type) where
  xs : List α
  first : Nat
  last : Nat
  dist : Nat
  deriving DecidableEq, Repr

/-- What the comments of `impl_unbuffered` assume of an invocation: `dist` is the number of
elements of the closed range `[first, last]`, at least 2, the element at `first` is
predicate-false and the element at `last` is predicate-true. -/
def Invocation.holds {α β : Type} (pred : β → Bool) (proj : α → β) (c : Invocation α) : Prop :=
  c.dist = distance c.first c.last + 1 ∧ 2 ≤ c.dist ∧
  c.xs[c.first]?.map (fun v => pred (proj v)) = some false ∧
  c.xs[c.last]?.map (fun v => pred (proj v)) = some true

instance {α β : Type} (pred : β → Bool) (proj : α → β) (c : Invocation α) :
    Decidable (c.holds pred proj) := by
  unfold Invocation.holds; infer_instance

namespace stable_partition_fn

/-- The function `impl_unbuffered` with a log: the same code, which also returns the list of
all invocations it performs, itself first, in call order. -/
def impl_unbuffered_calls {α β : Type} (pred : β → Bool) (proj : α → β) :
    Nat → List α → Nat → Nat → Nat → Except Fault ((List α × Nat) × List (Invocation α))
  | 0, _, _, _, _ => .error .fuel
  | fuel + 1, xs, first, last, dist =>
    let self : Invocation α := ⟨xs, first, last, dist⟩
    if dist = 2 then do
      let xs ← iter_swap xs first last
      pure ((xs, last), [self])
    else if dist = 3 then do
      let middle ← next xs first 1
      let v ← deref xs middle
      if pred (proj v) then do
        let xs ← iter_swap xs first middle
        let xs ← iter_swap xs middle last
        pure ((xs, last), [self])
      else do
        let xs ← iter_swap xs middle last
        let xs ← iter_swap xs first middle
        pure ((xs, middle), [self])
    else do
      let half := dist / 2
      let middle ← next xs first half
      let m1 ← prev middle
      let (m1, len_half) ← scan_back pred proj xs first m1 half
      let ((xs, first_false), log1) ←
        if m1 = first then pure ((xs, first), [])
        else impl_unbuffered_calls pred proj fuel xs first m1 len_half
      let len_half := dist - half
      match ← scan_fwd pred proj last (xs.drop middle) middle with
      | none => do
        let r ← rotate xs first_false middle (last + 1)
        pure (r, self :: log1)
      | some m1 => do
        let ((xs, last_false), log2) ← impl_unbuffered_calls pred proj fuel xs m1 last len_half
        let r ← rotate xs first_false middle last_false
        pure (r, self :: (log1 ++ log2))

/-- The function `impl` with the log of `impl_unbuffered_calls`. -/
def impl_calls {α β : Type} (pred : β → Bool) (proj : α → β) (xs : List α) (first last : Nat) :
    Except Fault ((List α × Nat) × List (Invocation α)) := do
  match ← trim_front pred proj last (xs.drop first) first with
  | Sum.inl r => pure ((xs, r), [])
  | Sum.inr first =>
    match ← trim_back pred proj xs first last with
    | Sum.inl r => pure ((xs, r), [])
    | Sum.inr last =>
      let dist := distance first last + 1
      impl_unbuffered_calls pred proj dist xs first last dist

end stable_partition_fn

/-- The function `stable_partition` with the log of the invocations of `impl_unbuffered`. -/
def stable_partition_calls {α β : Type} (pred : β → Bool) (proj : α → β) (xs : List α) :
    Except Fault ((List α × Nat) × List (Invocation α)) :=
  stable_partition_fn.impl_calls pred proj xs 0 xs.length

/-! ## `merge_fn` -/

/-- Modelled from the spec: the `MergeResult` triple `(pos1, pos2, posOut)`
(`in_in_out_result` is declared in `result_types.hpp`, outside the two source files). -/
structure merge_result (I1 I2 O : Type) where
  in1 : I1
  in2 : I2
  out : O

/-- The output position `result` together with the elements written through it so far, in
the order they were written. -/
structure output_iterator (ω : Type) where
  pos : Nat
  written : List ω

/-- The statements `*result = x; ++result;`. -/
def output_iterator.put {ω : Type} (result : output_iterator ω) (x : ω) : output_iterator ω :=
  ⟨result.pos + 1, result.written ++ [x]⟩

/-- Modelled from the spec: `copy(src_begin, src_end, dst_begin) -> (src_end_reached,
dst_end_reached)` (`nano::copy` lives in `copy.hpp`, outside the two source files): every
element of the source range is written through `result`, in order; the source position
returned is the end of the range.  `conv` is the conversion of a source element to the value
type of the output. -/
def copy {α ω : Type} (conv : α → ω) (first : List α) (result : output_iterator ω) :
    List α × output_iterator ω :=
  ([], ⟨result.pos + first.length, result.written ++ first.map conv⟩)

namespace merge_fn

/-- The loop `while (first1 != last1) { ... }` of `impl` (lines 28-51).  The two list
arguments are the ranges `[first1, last1)` and `[first2, last2)`.  The values are those of
`first1`, `first2` and `result` when the loop is left. -/
def impl_loop {α₁ α₂ γ ω : Type} (comp : γ → γ → Bool) (proj1 : α₁ → γ) (proj2 : α₂ → γ)
    (conv1 : α₁ → ω) (conv2 : α₂ → ω) :
    List α₁ → List α₂ → output_iterator ω → List α₁ × List α₂ × output_iterator ω
  | [], first2, result => ([], first2, result)
  | a :: rest1, [], result =>
    let res := copy conv1 (a :: rest1) result
    (res.1, [], res.2)
  | a :: rest1, b :: rest2, result =>
    if comp (proj2 b) (proj1 a) then
      impl_loop comp proj1 proj2 conv1 conv2 (a :: rest1) rest2 (result.put (conv2 b))
    else
      impl_loop comp proj1 proj2 conv1 conv2 rest1 (b :: rest2) (result.put (conv1 a))
termination_by first1 first2 _ => first1.length + first2.length

/-- The function `impl(first1, last1, first2, last2, result, comp, proj1, proj2)`
(lines 25-61).  `conv1` and `conv2` are the conversions performed by the assignments
`*result = *first1` and `*result = *first2` (the identity when the three value types are
the same). -/
def impl {α₁ α₂ γ ω : Type} (comp : γ → γ → Bool) (proj1 : α₁ → γ) (proj2 : α₂ → γ)
    (conv1 : α₁ → ω) (conv2 : α₂ → ω) (first1 : List α₁) (first2 : List α₂)
    (result : output_iterator ω) :
    merge_result (List α₁) (List α₂) (output_iterator ω) :=
  let st := impl_loop comp proj1 proj2 conv1 conv2 first1 first2 result
  let res := copy conv2 st.2.1 st.2.2
  { in1 := st.1, in2 := res.1, out := res.2 }

end merge_fn

/-- The range overload `merge(rng1, rng2, result, comp, proj1, proj2)` (lines 88-95). -/
def merge {α₁ α₂ γ ω : Type} (comp : γ → γ → Bool) (proj1 : α₁ → γ) (proj2 : α₂ → γ)
    (conv1 : α₁ → ω) (conv2 : α₂ → ω) (rng1 : List α₁) (rng2 : List α₂)
    (result : output_iterator ω) :
    merge_result (List α₁) (List α₂) (output_iterator ω) :=
  merge_fn.impl comp proj1 proj2 conv1 conv2 rng1 rng2 result

/-- The elements `merge` writes when all value types coincide and the output starts empty at
position 0. -/
def merged {α γ : Type} (comp : γ → γ → Bool) (proj1 proj2 : α → γ) (A B : List α) : List α :=
  (merge comp proj1 proj2 id id A B ⟨0, []⟩).out.written

/-- The elements `merge` writes, each marked with the input it was taken from: `Sum.inl` for
the first range, `Sum.inr` for the second. -/
def merged_tagged {α₁ α₂ γ : Type} (comp : γ → γ → Bool) (proj1 : α₁ → γ) (proj2 : α₂ → γ)
    (A : List α₁) (B : List α₂) : List (α₁ ⊕ α₂) :=
  (merge comp proj1 proj2 Sum.inl Sum.inr A B ⟨0, []⟩).out.written

/-- The comparator is a strict weak ordering: irreflexive, transitive, and with a transitive
equivalence `equiv a b := !comp a b && !comp b a`. -/
structure strict_weak_order {γ : Type} (comp : γ → γ → Bool) : Prop where
  irrefl : ∀ a, comp a a = false
  trans : ∀ a b c, comp a b = true → comp b c = true → comp a c = true
  equiv_trans : ∀ a b c, comp a b = false → comp b a = false →
    comp b c = false → comp c b = false → comp a c = false ∧ comp c a = false

/-- The sequence is sorted ascending under `comp` through `key`: no later element strictly
precedes an earlier one. -/
def is_sorted {α γ : Type} (comp : γ → γ → Bool) (key : α → γ) (l : List α) : Prop :=
  l.Pairwise (fun x y => comp (key y) (key x) = false)

instance {α γ : Type} (comp : γ → γ → Bool) (key : α → γ) (l : List α) :
    Decidable (is_sorted comp key l) := by
  unfold is_sorted; infer_instance

/-- The default comparator `ranges::less` on natural numbers. -/
def less (a b : Nat) : Bool := decide (a < b)

/-- The recursive description of what `merge` writes: when both inputs are non-empty the
element of the second input is written exactly when `comp (proj2 b) (proj1 a)` holds, and
the element of the first input otherwise; an exhausted input leaves a copy of the other. -/
def merge_ref {α₁ α₂ γ ω : Type} (comp : γ → γ → Bool) (proj1 : α₁ → γ) (proj2 : α₂ → γ)
    (conv1 : α₁ → ω) (conv2 : α₂ → ω) : List α₁ → List α₂ → List ω
  | [], B => B.map conv2
  | a :: A, [] => (a :: A).map conv1
  | a :: A, b :: B =>
    if comp (proj2 b) (proj1 a) then
      conv2 b :: merge_ref comp proj1 proj2 conv1 conv2 (a :: A) B
    else
      conv1 a :: merge_ref comp proj1 proj2 conv1 conv2 A (b :: B)
termination_by A B => A.length + B.length

/-- The boundary `r` partitions the sequence: every element of `[begin, r)` satisfies the
predicate and no element of `[r, end)` does. -/
def is_partitioned_at {α β : Type} (pred : β → Bool) (proj : α → β) (xs : List α) (r : Nat) :
    Prop :=
  (∀ x ∈ xs.take r, pred (proj x) = true) ∧ (∀ x ∈ xs.drop r, pred (proj x) = false)

instance {α β : Type} (pred : β → Bool) (proj : α → β) (xs : List α) (r : Nat) :
    Decidable (is_partitioned_at pred proj xs r) := by
  unfold is_partitioned_at; infer_instance

end nano

namespace nano

/-! # Properties -/

/-! ## Merge: the loop and its recursive description -/

section merge_lemmas

variable {α₁ α₂ γ ω : Type} (comp : γ → γ → Bool) (proj1 : α₁ → γ) (proj2 : α₂ → γ)
  (conv1 : α₁ → ω) (conv2 : α₂ → ω)

theorem merge_ref_nil_left (B : List α₂) :
    merge_ref comp proj1 proj2 conv1 conv2 [] B = B.map conv2 := by
  simp [merge_ref]

theorem merge_ref_nil_right (A : List α₁) :
    merge_ref comp proj1 proj2 conv1 conv2 A [] = A.map conv1 := by
  cases A <;> simp [merge_ref]

theorem merge_ref_cons_cons (a : α₁) (A : List α₁) (b : α₂) (B : List α₂) :
    merge_ref comp proj1 proj2 conv1 conv2 (a :: A) (b :: B) =
      if comp (proj2 b) (proj1 a) then
        conv2 b :: merge_ref comp proj1 proj2 conv1 conv2 (a :: A) B
      else
        conv1 a :: merge_ref comp proj1 proj2 conv1 conv2 A (b :: B) := by
  rw [merge_ref]

/-- What `impl` returns, in terms of `merge_ref`: both inputs are at their end, the output
position has advanced by the two lengths, and `merge_ref` has been appended to the output. -/
theorem merge_fn.impl_eq (A : List α₁) (B : List α₂) (result : output_iterator ω) :
    merge_fn.impl comp proj1 proj2 conv1 conv2 A B result =
      { in1 := [], in2 := [],
        out := ⟨result.pos + (A.length + B.length),
                result.written ++ merge_ref comp proj1 proj2 conv1 conv2 A B⟩ } := by
  induction A generalizing B result with
  | nil => simp [merge_fn.impl, merge_fn.impl_loop, copy, merge_ref]
  | cons a A ihA =>
    induction B generalizing result with
    | nil => simp [merge_fn.impl, merge_fn.impl_loop, copy, merge_ref]
    | cons b B ihB =>
      by_cases h : comp (proj2 b) (proj1 a) = true
      · have e := ihB (result.put (conv2 b))
        simp only [merge_fn.impl] at e ⊢
        rw [merge_fn.impl_loop, if_pos h, e, merge_ref_cons_cons, if_pos h]
        simp [output_iterator.put]
        omega
      · have e := ihA (b :: B) (result.put (conv1 a))
        simp only [merge_fn.impl] at e ⊢
        rw [merge_fn.impl_loop, if_neg h, e, merge_ref_cons_cons, if_neg h]
        simp [output_iterator.put]
        omega

theorem merge_ref_perm (A : List α₁) (B : List α₂) :
    (merge_ref comp proj1 proj2 conv1 conv2 A B).Perm (A.map conv1 ++ B.map conv2) := by
  induction A generalizing B with
  | nil => simp [merge_ref_nil_left]
  | cons a A ihA =>
    induction B with
    | nil => simp [merge_ref_nil_right]
    | cons b B ihB =>
      rw [merge_ref_cons_cons]
      split
      · refine (List.Perm.cons _ ihB).trans ?_
        simp only [List.map_cons]
        have hm : (conv1 a :: A.map conv1 ++ conv2 b :: B.map conv2).Perm
            (conv2 b :: (conv1 a :: A.map conv1 ++ B.map conv2)) := List.perm_middle
        exact hm.symm
      · simpa using List.Perm.cons (conv1 a) (ihA (b :: B))

theorem merge_ref_mem (A : List α₁) (B : List α₂) (y : ω) :
    y ∈ merge_ref comp proj1 proj2 conv1 conv2 A B ↔
      (∃ a ∈ A, conv1 a = y) ∨ (∃ b ∈ B, conv2 b = y) := by
  rw [(merge_ref_perm comp proj1 proj2 conv1 conv2 A B).mem_iff]
  simp

end merge_lemmas

/-! ## Strict weak orderings -/

theorem strict_weak_order.asymm {γ : Type} {comp : γ → γ → Bool} (h : strict_weak_order comp)
    {a b : γ} (hab : comp a b = true) : comp b a = false := by
  cases hba : comp b a with
  | false => rfl
  | true =>
    have := h.trans a b a hab hba
    rw [h.irrefl a] at this
    cases this

theorem strict_weak_order.neg_trans {γ : Type} {comp : γ → γ → Bool}
    (h : strict_weak_order comp) {a b c : γ} (hab : comp a b = false)
    (hbc : comp b c = false) : comp a c = false := by
  cases hac : comp a c with
  | false => rfl
  | true =>
    cases hba : comp b a with
    | true =>
      have := h.trans b a c hba hac
      rw [hbc] at this
      cases this
    | false =>
      cases hcb : comp c b with
      | true =>
        have := h.trans a c b hac hcb
        rw [hab] at this
        cases this
      | false =>
        have := (h.equiv_trans a b c hab hba hbc hcb).1
        rw [hac] at this
        cases this

theorem less_strict_weak_order : strict_weak_order less := by
  refine ⟨?_, ?_, ?_⟩
  · intro a; simp [less]
  · intro a b c; simp only [less, decide_eq_true_eq]; omega
  · intro a b c; simp only [less, decide_eq_false_iff_not]; omega

/-- Under a strict weak ordering it is enough to compare neighbours: a sequence in which no
element strictly precedes its predecessor is sorted. -/
theorem is_sorted_of_chain {α γ : Type} {comp : γ → γ → Bool} (hswo : strict_weak_order comp)
    (key : α → γ) (l : List α)
    (h : l.Chain' (fun x y => comp (key y) (key x) = false)) : is_sorted comp key l := by
  unfold is_sorted
  induction l with
  | nil => exact List.Pairwise.nil
  | cons x l ih =>
    rw [List.pairwise_cons]
    refine ⟨?_, ih (List.Chain'.tail h)⟩
    have hl := ih (List.Chain'.tail h)
    cases l with
    | nil => intro y hy; cases hy
    | cons z l =>
      rw [List.chain'_cons] at h
      rw [List.pairwise_cons] at hl
      intro y hy
      rcases List.mem_cons.1 hy with rfl | hy'
      · exact h.1
      · exact hswo.neg_trans (hl.1 y hy') h.1

/-! ## Merge: sortedness and stability of the recursive description -/

section merge_order

variable {α₁ α₂ γ ω : Type} {comp : γ → γ → Bool} (hswo : strict_weak_order comp)
  (proj1 : α₁ → γ) (proj2 : α₂ → γ) (conv1 : α₁ → ω) (conv2 : α₂ → ω)

include hswo

theorem merge_ref_sorted (key : ω → γ) (h1 : ∀ a, key (conv1 a) = proj1 a)
    (h2 : ∀ b, key (conv2 b) = proj2 b) (A : List α₁) (B : List α₂)
    (hA : is_sorted comp proj1 A) (hB : is_sorted comp proj2 B) :
    is_sorted comp key (merge_ref comp proj1 proj2 conv1 conv2 A B) := by
  induction A generalizing B with
  | nil =>
    rw [merge_ref_nil_left]
    unfold is_sorted at hB ⊢
    rw [List.pairwise_map]
    simpa [h2] using hB
  | cons a A ihA =>
    induction B with
    | nil =>
      rw [merge_ref_nil_right]
      unfold is_sorted at hA ⊢
      rw [List.pairwise_map]
      simpa [h1] using hA
    | cons b B ihB =>
      have hA' := hA
      have hB' := hB
      unfold is_sorted at hA' hB'
      rw [List.pairwise_cons] at hA' hB'
      rw [merge_ref_cons_cons]
      by_cases h : comp (proj2 b) (proj1 a) = true
      · rw [if_pos h]
        unfold is_sorted
        rw [List.pairwise_cons]
        refine ⟨?_, ihB hB'.2⟩
        intro y hy
        rw [merge_ref_mem] at hy
        rcases hy with ⟨a', ha', rfl⟩ | ⟨b', hb', rfl⟩
        · rw [h1, h2]
          rcases List.mem_cons.1 ha' with rfl | ha''
          · exact hswo.asymm h
          · cases hc : comp (proj1 a') (proj2 b) with
            | false => rfl
            | true =>
              have := hswo.trans _ _ _ hc h
              rw [hA'.1 a' ha''] at this
              cases this
        · rw [h2, h2]
          exact hB'.1 b' hb'
      · rw [if_neg h]
        have h' : comp (proj2 b) (proj1 a) = false := by simpa using h
        unfold is_sorted
        rw [List.pairwise_cons]
        refine ⟨?_, ihA (b :: B) hA'.2 hB⟩
        intro y hy
        rw [merge_ref_mem] at hy
        rcases hy with ⟨a', ha', rfl⟩ | ⟨b', hb', rfl⟩
        · rw [h1, h1]
          exact hA'.1 a' ha'
        · rw [h2, h1]
          rcases List.mem_cons.1 hb' with rfl | hb''
          · exact h'
          · exact hswo.neg_trans (hB'.1 b' hb'') h'

/-- In what `merge` writes for sorted inputs, an element of the second input stands before
an element of the first input only when it strictly precedes it. -/
theorem merge_ref_tagged_order (A : List α₁) (B : List α₂)
    (hA : is_sorted comp proj1 A) (hB : is_sorted comp proj2 B) :
    (merge_ref comp proj1 proj2 (Sum.inl : α₁ → α₁ ⊕ α₂) Sum.inr A B).Pairwise
      (fun x y => ∀ b a, x = Sum.inr b → y = Sum.inl a → comp (proj2 b) (proj1 a) = true) := by
  induction A generalizing B with
  | nil =>
    rw [merge_ref_nil_left, List.pairwise_map]
    exact List.pairwise_of_forall (fun x y b a _ hy => by cases hy)
  | cons a A ihA =>
    induction B with
    | nil =>
      rw [merge_ref_nil_right, List.pairwise_map]
      exact List.pairwise_of_forall (fun x y b a hx _ => by cases hx)
    | cons b B ihB =>
      have hA' := hA
      have hB' := hB
      unfold is_sorted at hA' hB'
      rw [List.pairwise_cons] at hA' hB'
      rw [merge_ref_cons_cons]
      by_cases h : comp (proj2 b) (proj1 a) = true
      · rw [if_pos h, List.pairwise_cons]
        refine ⟨?_, ihB hB'.2⟩
        intro y hy b0 a0 hb0 ha0
        cases hb0
        subst ha0
        rw [merge_ref_mem] at hy
        rcases hy with ⟨a', ha', e⟩ | ⟨b', _, e⟩
        · cases e
          rcases List.mem_cons.1 ha' with rfl | ha''
          · exact h
          · cases hc : comp (proj2 b) (proj1 a0) with
            | true => rfl
            | false =>
              have := hswo.neg_trans hc (hA'.1 a0 ha'')
              rw [h] at this
              cases this
        · cases e
      · rw [if_neg h, List.pairwise_cons]
        refine ⟨?_, ihA (b :: B) hA'.2 hB⟩
        intro y _ b0 a0 hb0 _
        cases hb0

end merge_order

/-! ## Merge: the claims -/

/-- C4: for inputs `A` and `B` that are each sorted ascending under the strict weak ordering
`comp`, each through its own projection, the sequence written by `merge` is sorted under
`comp`: no later output element strictly precedes an earlier one.  The key of an output
element is the projection of the input it came from. -/
theorem merge_output_sorted {α₁ α₂ γ ω : Type} (comp : γ → γ → Bool)
    (hswo : strict_weak_order comp) (proj1 : α₁ → γ) (proj2 : α₂ → γ)
    (conv1 : α₁ → ω) (conv2 : α₂ → ω) (key : ω → γ)
    (h1 : ∀ a, key (conv1 a) = proj1 a) (h2 : ∀ b, key (conv2 b) = proj2 b)
    (A : List α₁) (B : List α₂)
    (hA : is_sorted comp proj1 A) (hB : is_sorted comp proj2 B) (pos : Nat) :
    is_sorted comp key (merge comp proj1 proj2 conv1 conv2 A B ⟨pos, []⟩).out.written := by
  unfold merge
  rw [merge_fn.impl_eq]
  simpa using merge_ref_sorted hswo proj1 proj2 conv1 conv2 key h1 h2 A B hA hB

theorem merge_output_sorted_witness :
    strict_weak_order less ∧ is_sorted less id [1, 3, 5] ∧ is_sorted less id [2, 4, 6] ∧
      is_sorted less id (merge less id id id id [1, 3, 5] [2, 4, 6] ⟨0, []⟩).out.written :=
  ⟨less_strict_weak_order, by decide, by decide,
    merge_output_sorted less less_strict_weak_order id id id id id (fun _ => rfl)
      (fun _ => rfl) [1, 3, 5] [2, 4, 6] (by decide) (by decide) 0⟩

/-- C5: for all inputs, sorted or not, and any comparator and projections, the sequence
written by `merge` is a permutation of the unprojected elements of `A` followed by those of
`B`, and its length is `|A| + |B|`. -/
theorem merge_output_perm {α₁ α₂ γ ω : Type} (comp : γ → γ → Bool) (proj1 : α₁ → γ)
    (proj2 : α₂ → γ) (conv1 : α₁ → ω) (conv2 : α₂ → ω) (A : List α₁) (B : List α₂)
    (pos : Nat) :
    (merge comp proj1 proj2 conv1 conv2 A B ⟨pos, []⟩).out.written.Perm
        (A.map conv1 ++ B.map conv2) ∧
      (merge comp proj1 proj2 conv1 conv2 A B ⟨pos, []⟩).out.written.length
        = A.length + B.length := by
  unfold merge
  rw [merge_fn.impl_eq]
  have hp := merge_ref_perm comp proj1 proj2 conv1 conv2 A B
  refine ⟨by simpa using hp, ?_⟩
  simpa using hp.length_eq

/-- C6: `merge` is stable.  For sorted inputs under a strict weak ordering, whenever an
element `a` taken from `A` and an element `b` taken from `B` compare equivalent, `a` stands
before `b` in the output (`i` and `j` are their output positions). -/
theorem merge_stable {α₁ α₂ γ : Type} (comp : γ → γ → Bool) (hswo : strict_weak_order comp)
    (proj1 : α₁ → γ) (proj2 : α₂ → γ) (A : List α₁) (B : List α₂)
    (hA : is_sorted comp proj1 A) (hB : is_sorted comp proj2 B)
    (i j : Nat) (a : α₁) (b : α₂)
    (hi : (merged_tagged comp proj1 proj2 A B)[i]? = some (Sum.inl a))
    (hj : (merged_tagged comp proj1 proj2 A B)[j]? = some (Sum.inr b))
    (_hab : comp (proj1 a) (proj2 b) = false) (hba : comp (proj2 b) (proj1 a) = false) :
    i < j := by
  have hp := merge_ref_tagged_order hswo proj1 proj2 A B hA hB
  have hw : merged_tagged comp proj1 proj2 A B
      = merge_ref comp proj1 proj2 Sum.inl Sum.inr A B := by
    unfold merged_tagged merge
    rw [merge_fn.impl_eq]
    simp
  rw [hw] at hi hj
  rw [List.pairwise_iff_getElem] at hp
  rcases Nat.lt_trichotomy i j with h | h | h
  · exact h
  · subst h
    rw [hi] at hj
    cases hj
  · obtain ⟨hjl, hje⟩ := List.getElem?_eq_some.1 hj
    obtain ⟨hil, hie⟩ := List.getElem?_eq_some.1 hi
    have := hp j i hjl hil h b a hje hie
    rw [hba] at this
    cases this

theorem merge_stable_witness :
    strict_weak_order less ∧ is_sorted less id [1, 2, 2] ∧ is_sorted less id [2, 3] ∧
      (merged_tagged less id id [1, 2, 2] [2, 3])[2]? = some (Sum.inl 2) ∧
      (merged_tagged less id id [1, 2, 2] [2, 3])[3]? = some (Sum.inr 2) ∧
      less (id 2) (id 2) = false ∧ 2 < 3 :=
  have hi : (merged_tagged less id id [1, 2, 2] [2, 3])[2]? = some (Sum.inl 2) := by
    simp [merged_tagged, merge, merge_fn.impl, merge_fn.impl_loop, less, copy,
      output_iterator.put]
  have hj : (merged_tagged less id id [1, 2, 2] [2, 3])[3]? = some (Sum.inr 2) := by
    simp [merged_tagged, merge, merge_fn.impl, merge_fn.impl_loop, less, copy,
      output_iterator.put]
  ⟨less_strict_weak_order, by decide, by decide, hi, hj, by decide,
    merge_stable less less_strict_weak_order id id [1, 2, 2] [2, 3] (by decide)
      (by decide) 2 3 2 2 hi hj (by decide) (by decide)⟩

/-- C7: the triple returned by `merge` has both input positions at the end of their ranges
(both inputs fully consumed, whichever way the loop is left) and its output position is the
initial output position advanced by `|A| + |B|`. -/
theorem merge_result_positions {α₁ α₂ γ ω : Type} (comp : γ → γ → Bool) (proj1 : α₁ → γ)
    (proj2 : α₂ → γ) (conv1 : α₁ → ω) (conv2 : α₂ → ω) (A : List α₁) (B : List α₂)
    (result : output_iterator ω) :
    (merge comp proj1 proj2 conv1 conv2 A B result).in1 = [] ∧
      (merge comp proj1 proj2 conv1 conv2 A B result).in2 = [] ∧
      (merge comp proj1 proj2 conv1 conv2 A B result).out.pos
        = result.pos + (A.length + B.length) ∧
      (merge comp proj1 proj2 conv1 conv2 A B result).out.written.length
        = result.written.length + (A.length + B.length) := by
  unfold merge
  rw [merge_fn.impl_eq]
  have hp := (merge_ref_perm comp proj1 proj2 conv1 conv2 A B).length_eq
  refine ⟨rfl, rfl, rfl, ?_⟩
  simp only [List.length_append, List.length_map] at hp ⊢
  omega

/-- C8: an empty input is an identity for `merge`: for every sequence `X`, sorted or not, and
any comparator and projections, `merge([], X)` writes exactly `X` in its original order, and
so does `merge(X, [])`. -/
theorem merge_empty_identity {α γ : Type} (comp : γ → γ → Bool) (proj1 proj2 : α → γ)
    (X : List α) (result : output_iterator α) :
    (merge comp proj1 proj2 id id [] X result).out.written = result.written ++ X ∧
      (merge comp proj1 proj2 id id X [] result).out.written = result.written ++ X := by
  unfold merge
  rw [merge_fn.impl_eq, merge_fn.impl_eq, merge_ref_nil_left, merge_ref_nil_right]
  simp

/-! ## Stable partition: the two trimming loops of `impl` -/

section trim

variable {α β : Type} (pred : β → Bool) (proj : α → β)

/-- The first loop of `impl` steps over a run of predicate-true elements. -/
theorem stable_partition_fn.trim_front_true_run (last : Nat) (ts rest : List α) (first : Nat)
    (ht : ∀ x ∈ ts, pred (proj x) = true) (hl : first + ts.length ≤ last) :
    stable_partition_fn.trim_front pred proj last (ts ++ rest) first =
      stable_partition_fn.trim_front pred proj last rest (first + ts.length) := by
  induction ts generalizing first with
  | nil => simp
  | cons t ts ih =>
    have hne : first ≠ last := by simp only [List.length_cons] at hl; omega
    have ht0 : pred (proj t) = true := ht t (List.mem_cons_self _ _)
    rw [List.cons_append, stable_partition_fn.trim_front, if_neg hne]
    simp only [ht0, Bool.not_true, Bool.false_eq_true, if_false]
    rw [ih (first + 1) (fun x hx => ht x (List.mem_cons_of_mem _ hx))
      (by simp only [List.length_cons] at hl; omega)]
    simp only [List.length_cons]
    congr 1
    omega

/-- The second loop of `impl` steps back over a run of predicate-false elements and returns
`first` when it meets it. -/
theorem stable_partition_fn.trim_back_false_run (xs : List α) (first : Nat) (n : Nat)
    (hf : ∀ i, first < i → i < first + 1 + n →
      ∃ v, xs[i]? = some v ∧ pred (proj v) = false) :
    stable_partition_fn.trim_back pred proj xs first (first + 1 + n) = .ok (Sum.inl first) := by
  induction n with
  | zero => simp [stable_partition_fn.trim_back, pure, Except.pure]
  | succ n ih =>
    obtain ⟨v, hv, hp⟩ := hf (first + 1 + n) (by omega) (by omega)
    have hne : first + 1 + n ≠ first := by omega
    rw [show first + 1 + (n + 1) = (first + 1 + n) + 1 by omega,
      stable_partition_fn.trim_back, if_neg hne]
    simp only [deref, hv, bind, Except.bind, hp, Bool.false_eq_true, if_false]
    exact ih (fun i h1 h2 => hf i h1 (by omega))

end trim

/-! ## Stable partition: the log, the recursion budget, permutations -/

/-! ### Erasing the log gives back the code -/

section runs
variable {α β : Type} (pred : β → Bool) (proj : α → β)

theorem stable_partition_fn.impl_unbuffered_calls_fst (fuel : Nat) (xs : List α)
    (first last dist : Nat) :
    Except.map Prod.fst
        (stable_partition_fn.impl_unbuffered_calls pred proj fuel xs first last dist)
      = stable_partition_fn.impl_unbuffered pred proj fuel xs first last dist := by
  induction fuel generalizing xs first last dist with
  | zero => rfl
  | succ fuel ih =>
    rw [stable_partition_fn.impl_unbuffered_calls, stable_partition_fn.impl_unbuffered]
    by_cases h2 : dist = 2
    · simp only [if_pos h2]
      cases iter_swap xs first last <;> rfl
    · by_cases h3 : dist = 3
      · simp only [if_neg h2, if_pos h3]
        cases next xs first 1 with
        | error e => rfl
        | ok middle =>
          simp only [bind, Except.bind]
          cases deref xs middle with
          | error e => rfl
          | ok v =>
            simp only
            cases pred (proj v) with
            | true =>
              simp only [if_true]
              cases iter_swap xs first middle with
              | error e => rfl
              | ok ys => simp only; cases iter_swap ys middle last <;> rfl
            | false =>
              simp only [Bool.false_eq_true, if_false]
              cases iter_swap xs middle last with
              | error e => rfl
              | ok ys => simp only; cases iter_swap ys first middle <;> rfl
      · simp only [if_neg h2, if_neg h3]
        cases next xs first (dist / 2) with
        | error e => rfl
        | ok middle =>
          simp only [bind, Except.bind]
          cases prev middle with
          | error e => rfl
          | ok m0 =>
            simp only
            cases scan_back pred proj xs first m0 (dist / 2) with
            | error e => rfl
            | ok r =>
              obtain ⟨m1, len_half⟩ := r
              simp only
              by_cases hm : m1 = first
              · simp only [if_pos hm, pure, Except.pure]
                cases scan_fwd pred proj last (List.drop middle xs) middle with
                | error e => rfl
                | ok o =>
                  cases o with
                  | none =>
                    simp only
                    cases rotate xs first middle (last + 1) <;> rfl
                  | some m2 =>
                    simp only
                    rw [← ih xs m2 last (dist - dist / 2)]
                    cases stable_partition_fn.impl_unbuffered_calls pred proj fuel xs m2 last
                        (dist - dist / 2) with
                    | error e => rfl
                    | ok r2 =>
                      obtain ⟨⟨ys, last_false⟩, log2⟩ := r2
                      simp only [Except.map]
                      cases rotate ys first middle last_false <;> rfl
              · simp only [if_neg hm]
                rw [← ih xs first m1 len_half]
                cases stable_partition_fn.impl_unbuffered_calls pred proj fuel xs first m1
                    len_half with
                | error e => rfl
                | ok r1 =>
                  obtain ⟨⟨ys, first_false⟩, log1⟩ := r1
                  simp only [Except.map]
                  cases scan_fwd pred proj last (List.drop middle ys) middle with
                  | error e => rfl
                  | ok o =>
                    cases o with
                    | none =>
                      simp only
                      cases rotate ys first_false middle (last + 1) <;> rfl
                    | some m2 =>
                      simp only
                      rw [← ih ys m2 last (dist - dist / 2)]
                      cases stable_partition_fn.impl_unbuffered_calls pred proj fuel ys m2 last
                          (dist - dist / 2) with
                      | error e => rfl
                      | ok r2 =>
                        obtain ⟨⟨zs, last_false⟩, log2⟩ := r2
                        simp only [Except.map]
                        cases rotate zs first_false middle last_false <;> rfl

theorem stable_partition_calls_fst (xs : List α) :
    Except.map Prod.fst (stable_partition_calls pred proj xs) = stable_partition pred proj xs := by
  unfold stable_partition_calls stable_partition stable_partition_fn.impl_calls
    stable_partition_fn.impl
  cases stable_partition_fn.trim_front pred proj xs.length (List.drop 0 xs) 0 with
  | error e => rfl
  | ok r =>
    cases r with
    | inl r => rfl
    | inr first =>
      simp only [bind, Except.bind]
      cases stable_partition_fn.trim_back pred proj xs first xs.length with
      | error e => rfl
      | ok r =>
        cases r with
        | inl r => rfl
        | inr last =>
          simp only
          exact stable_partition_fn.impl_unbuffered_calls_fst pred proj _ xs first last _

/-! ### The recursion budget is never exhausted -/

theorem deref_ne_fuel (xs : List α) (i : Nat) : deref xs i ≠ .error .fuel := by
  unfold deref
  cases xs[i]? <;> simp

theorem next_ne_fuel (xs : List α) (i n : Nat) : next xs i n ≠ .error .fuel := by
  unfold next
  split <;> simp

theorem prev_ne_fuel (i : Nat) : prev i ≠ .error .fuel := by
  cases i <;> simp [prev]

theorem iter_swap_ne_fuel (xs : List α) (i j : Nat) : iter_swap xs i j ≠ .error .fuel := by
  unfold iter_swap deref
  cases xs[i]? <;> cases xs[j]? <;> simp [bind, Except.bind, pure, Except.pure]

theorem rotate_ne_fuel (xs : List α) (f m l : Nat) : rotate xs f m l ≠ .error .fuel := by
  unfold rotate
  split <;> simp

theorem stable_partition_fn.scan_back_ne_fuel (xs : List α) (first m1 len_half : Nat) :
    stable_partition_fn.scan_back pred proj xs first m1 len_half ≠ .error .fuel := by
  induction m1 generalizing len_half with
  | zero =>
    unfold stable_partition_fn.scan_back deref
    split
    · cases xs[0]? with
      | none => simp [bind, Except.bind]
      | some v => cases hp : pred (proj v) <;> simp [hp, bind, Except.bind, pure, Except.pure]
    · simp [pure, Except.pure]
  | succ k ih =>
    unfold stable_partition_fn.scan_back deref
    split
    · cases xs[k + 1]? with
      | none => simp [bind, Except.bind]
      | some v =>
        cases hp : pred (proj v) with
        | true => simp [hp, bind, Except.bind, pure, Except.pure]
        | false => simpa [hp, bind, Except.bind] using ih (len_half - 1)
    · simp [pure, Except.pure]

theorem stable_partition_fn.scan_fwd_ne_fuel (last : Nat) (ys : List α) (m1 : Nat) :
    stable_partition_fn.scan_fwd pred proj last ys m1 ≠ .error .fuel := by
  induction ys generalizing m1 with
  | nil => simp [stable_partition_fn.scan_fwd]
  | cons v rest ih =>
    unfold stable_partition_fn.scan_fwd
    split
    · split
      · simp [pure, Except.pure]
      · exact ih (m1 + 1)
    · simp [pure, Except.pure]

theorem stable_partition_fn.scan_back_spec (xs : List α) (first m1 len_half : Nat)
    (r : Nat × Nat) (h : stable_partition_fn.scan_back pred proj xs first m1 len_half = .ok r)
    (hle : first ≤ m1) (hlen : len_half = m1 - first + 1) :
    first ≤ r.1 ∧ r.1 ≤ m1 ∧ r.2 = r.1 - first + 1 := by
  induction m1 generalizing len_half with
  | zero =>
    have hf : first = 0 := by omega
    subst hf
    unfold stable_partition_fn.scan_back at h
    simp [pure, Except.pure] at h
    subst h
    simp [hlen]
  | succ k ih =>
    unfold stable_partition_fn.scan_back at h
    by_cases hk : k + 1 = first
    · simp [hk, pure, Except.pure] at h
      subst h
      simp [hlen, hk]
    · simp only [ne_eq, hk, not_false_eq_true, if_true] at h
      cases hd : deref xs (k + 1) with
      | error e => simp [hd, bind, Except.bind] at h
      | ok v =>
        simp only [hd, bind, Except.bind] at h
        cases hp : pred (proj v) with
        | true =>
          simp [hp, pure, Except.pure] at h
          subst h
          simp [hlen]
          omega
        | false =>
          simp only [hp, Bool.not_false, if_true] at h
          have := ih (len_half - 1) h (by omega) (by omega)
          omega

theorem bind_ne_fuel {δ ε : Type} (x : Except Fault δ) (f : δ → Except Fault ε)
    (hx : x ≠ .error .fuel) (hf : ∀ v, x = .ok v → f v ≠ .error .fuel) :
    (x >>= f) ≠ .error .fuel := by
  cases x with
  | error e => simpa [bind, Except.bind] using hx
  | ok v => simpa [bind, Except.bind] using hf v rfl

theorem pure_ne_fuel {δ : Type} (v : δ) : (pure v : Except Fault δ) ≠ .error .fuel := by
  simp [pure, Except.pure]

theorem stable_partition_fn.impl_unbuffered_ne_fuel (fuel : Nat) (xs : List α)
    (first last dist : Nat) (h2 : 2 ≤ dist) (hfuel : dist ≤ fuel + 1) :
    stable_partition_fn.impl_unbuffered pred proj fuel xs first last dist ≠ .error .fuel := by
  induction fuel generalizing xs first last dist with
  | zero => omega
  | succ fuel ih =>
    rw [stable_partition_fn.impl_unbuffered]
    by_cases hd2 : dist = 2
    · rw [if_pos hd2]
      exact bind_ne_fuel _ _ (iter_swap_ne_fuel _ _ _) (fun _ _ => pure_ne_fuel _)
    · by_cases hd3 : dist = 3
      · rw [if_neg hd2, if_pos hd3]
        refine bind_ne_fuel _ _ (next_ne_fuel _ _ _) (fun middle _ => ?_)
        refine bind_ne_fuel _ _ (deref_ne_fuel _ _) (fun v _ => ?_)
        split
        · refine bind_ne_fuel _ _ (iter_swap_ne_fuel _ _ _) (fun ys _ => ?_)
          exact bind_ne_fuel _ _ (iter_swap_ne_fuel _ _ _) (fun _ _ => pure_ne_fuel _)
        · refine bind_ne_fuel _ _ (iter_swap_ne_fuel _ _ _) (fun ys _ => ?_)
          exact bind_ne_fuel _ _ (iter_swap_ne_fuel _ _ _) (fun _ _ => pure_ne_fuel _)
      · rw [if_neg hd2, if_neg hd3]
        have hhalf : 2 ≤ dist / 2 := by omega
        refine bind_ne_fuel _ _ (next_ne_fuel _ _ _) (fun middle hmid => ?_)
        refine bind_ne_fuel _ _ (prev_ne_fuel _) (fun m0 hm0 => ?_)
        refine bind_ne_fuel _ _ (stable_partition_fn.scan_back_ne_fuel pred proj _ _ _ _)
          (fun r hr => ?_)
        obtain ⟨m1, len_half⟩ := r
        have hmid' : middle = first + dist / 2 := by
          unfold next at hmid
          split at hmid
          · exact (Except.ok.inj hmid).symm
          · cases hmid
        have hm0' : m0 + 1 = middle := by
          cases middle with
          | zero => cases hm0
          | succ k => exact congrArg (· + 1) (Except.ok.inj hm0).symm
        have hs := stable_partition_fn.scan_back_spec pred proj xs first m0 (dist / 2)
          (m1, len_half) hr (by omega) (by omega)
        simp only at hs
        have hright : ∀ (ys : List α) (ff : Nat),
            (do
              match ← stable_partition_fn.scan_fwd pred proj last (ys.drop middle) middle with
              | none => rotate ys ff middle (last + 1)
              | some m2 => do
                let (zs, last_false) ←
                  stable_partition_fn.impl_unbuffered pred proj fuel ys m2 last
                    (dist - dist / 2)
                rotate zs ff middle last_false) ≠ Except.error Fault.fuel := by
          intro ys ff
          refine bind_ne_fuel _ _ (stable_partition_fn.scan_fwd_ne_fuel pred proj _ _ _)
            (fun o _ => ?_)
          cases o with
          | none => exact rotate_ne_fuel _ _ _ _
          | some m2 =>
            refine bind_ne_fuel _ _ (ih ys m2 last _ (by omega) (by omega)) (fun r2 _ => ?_)
            exact rotate_ne_fuel _ _ _ _
        simp only
        split
        · refine bind_ne_fuel _ _ (pure_ne_fuel _) (fun r1 _ => ?_)
          obtain ⟨ys, ff⟩ := r1
          exact hright ys ff
        · refine bind_ne_fuel _ _ (ih xs first m1 len_half (by omega) (by omega))
            (fun r1 _ => ?_)
          obtain ⟨ys, ff⟩ := r1
          exact hright ys ff

theorem stable_partition_fn.trim_front_spec (last : Nat) (ys : List α) (first : Nat) :
    stable_partition_fn.trim_front pred proj last ys first ≠ .error .fuel ∧
      ∀ f, stable_partition_fn.trim_front pred proj last ys first = .ok (Sum.inr f) →
        first ≤ last → f < last := by
  induction ys generalizing first with
  | nil =>
    unfold stable_partition_fn.trim_front
    split <;> simp [pure, Except.pure]
  | cons v rest ih =>
    unfold stable_partition_fn.trim_front
    split
    · simp [pure, Except.pure]
    · split
      · simp only [pure, Except.pure, ne_eq, reduceCtorEq, not_false_eq_true, Except.ok.injEq,
          Sum.inr.injEq, true_and]
        intro f hf hle
        omega
      · refine ⟨(ih (first + 1)).1, fun f hf hle => (ih (first + 1)).2 f hf (by omega)⟩

theorem stable_partition_fn.trim_back_spec (xs : List α) (first last : Nat) :
    stable_partition_fn.trim_back pred proj xs first last ≠ .error .fuel ∧
      ∀ l, stable_partition_fn.trim_back pred proj xs first last = .ok (Sum.inr l) →
        first < last → first < l := by
  induction last with
  | zero => simp [stable_partition_fn.trim_back]
  | succ last ih =>
    unfold stable_partition_fn.trim_back
    split
    · simp [pure, Except.pure]
    · cases hd : deref xs last with
      | error e =>
        have := deref_ne_fuel xs last
        rw [hd] at this
        simpa [bind, Except.bind] using this
      | ok v =>
        simp only [bind, Except.bind]
        split
        · simp only [pure, Except.pure, ne_eq, reduceCtorEq, not_false_eq_true,
            Except.ok.injEq, Sum.inr.injEq, true_and]
          intro l hl hlt
          omega
        · exact ⟨ih.1, fun l hl hlt => ih.2 l hl (by omega)⟩

/-- The recursion budget that `impl` supplies is never exhausted. -/
theorem stable_partition_ne_fuel (xs : List α) :
    stable_partition pred proj xs ≠ .error .fuel := by
  unfold stable_partition stable_partition_fn.impl
  refine bind_ne_fuel _ _ (stable_partition_fn.trim_front_spec pred proj _ _ _).1
    (fun r hr => ?_)
  cases r with
  | inl r => exact pure_ne_fuel _
  | inr first =>
    have hlt := (stable_partition_fn.trim_front_spec pred proj _ _ _).2 first hr (Nat.zero_le _)
    refine bind_ne_fuel _ _ (stable_partition_fn.trim_back_spec pred proj _ _ _).1
      (fun r hr2 => ?_)
    cases r with
    | inl r => exact pure_ne_fuel _
    | inr last =>
      have hlt2 := (stable_partition_fn.trim_back_spec pred proj _ _ _).2 last hr2 hlt
      exact stable_partition_fn.impl_unbuffered_ne_fuel pred proj _ xs first last _
        (by unfold distance; omega) (by omega)

/-! ### A run that returns leaves a permutation -/

theorem bind_eq_ok {δ ε : Type} {x : Except Fault δ} {f : δ → Except Fault ε} {w : ε}
    (h : (x >>= f) = .ok w) : ∃ v, x = .ok v ∧ f v = .ok w := by
  cases x with
  | error e => simp [bind, Except.bind] at h
  | ok v => exact ⟨v, rfl, by simpa [bind, Except.bind] using h⟩

theorem set_perm_cons (xs : List α) (j : Nat) (b x : α) (h : xs[j]? = some b) :
    (b :: xs.set j x).Perm (x :: xs) := by
  induction xs generalizing j with
  | nil => simp at h
  | cons y ys ih =>
    cases j with
    | zero =>
      simp only [List.getElem?_cons_zero, Option.some.injEq] at h
      subst h
      exact List.Perm.swap _ _ _
    | succ k =>
      simp only [List.getElem?_cons_succ] at h
      simp only [List.set_cons_succ]
      exact ((List.Perm.swap y b _).trans ((ih k h).cons y)).trans (List.Perm.swap x y ys)

theorem iter_swap_perm (xs ys : List α) (i j : Nat) (h : iter_swap xs i j = .ok ys) :
    ys.Perm xs := by
  unfold iter_swap deref at h
  cases hi : xs[i]? with
  | none => simp [hi, bind, Except.bind] at h
  | some a =>
    cases hj : xs[j]? with
    | none => simp [hi, hj, bind, Except.bind] at h
    | some b =>
      simp only [hi, hj, bind, Except.bind, pure, Except.pure, Except.ok.injEq] at h
      subst h
      induction xs generalizing i j with
      | nil => simp at hi
      | cons x xs ih =>
        cases i with
        | zero =>
          simp only [List.getElem?_cons_zero, Option.some.injEq] at hi
          subst hi
          cases j with
          | zero =>
            simp only [List.getElem?_cons_zero, Option.some.injEq] at hj
            subst hj
            simp
          | succ j =>
            simp only [List.getElem?_cons_succ] at hj
            simpa using set_perm_cons xs j b x hj
        | succ i =>
          simp only [List.getElem?_cons_succ] at hi
          cases j with
          | zero =>
            simp only [List.getElem?_cons_zero, Option.some.injEq] at hj
            subst hj
            simpa using set_perm_cons xs i a x hi
          | succ j =>
            simp only [List.getElem?_cons_succ] at hj
            simpa using (ih i j hi hj).cons x

/-- The four blocks `rotate` works on make up the sequence. -/
theorem rotate_blocks (xs : List α) (first middle last : Nat) (h1 : first ≤ middle)
    (h2 : middle ≤ last) :
    xs = xs.take first ++ ((xs.drop first).take (middle - first)
      ++ ((xs.drop middle).take (last - middle) ++ xs.drop last)) := by
  have e1 : (xs.drop first).drop (middle - first) = xs.drop middle := by
    rw [List.drop_drop]; congr 1; omega
  have e2 : (xs.drop middle).drop (last - middle) = xs.drop last := by
    rw [List.drop_drop]; congr 1; omega
  conv_lhs => rw [← List.take_append_drop first xs,
    ← List.take_append_drop (middle - first) (xs.drop first), e1,
    ← List.take_append_drop (last - middle) (xs.drop middle), e2]

theorem rotate_perm (xs ys : List α) (first middle last r : Nat)
    (h : rotate xs first middle last = .ok (ys, r)) : ys.Perm xs := by
  unfold rotate at h
  split at h
  · rename_i hc
    simp only [Except.ok.injEq, Prod.mk.injEq] at h
    obtain ⟨rfl, -⟩ := h
    conv_rhs => rw [rotate_blocks xs first middle last hc.1 hc.2.1]
    refine List.Perm.append_left _ ?_
    rw [← List.append_assoc, ← List.append_assoc]
    exact List.Perm.append_right _ List.perm_append_comm
  · cases h

theorem stable_partition_fn.impl_unbuffered_perm (fuel : Nat) (xs : List α)
    (first last dist : Nat) (ys : List α) (r : Nat)
    (h : stable_partition_fn.impl_unbuffered pred proj fuel xs first last dist = .ok (ys, r)) :
    ys.Perm xs := by
  induction fuel generalizing xs first last dist ys r with
  | zero => cases h
  | succ fuel ih =>
    rw [stable_partition_fn.impl_unbuffered] at h
    by_cases hd2 : dist = 2
    · rw [if_pos hd2] at h
      obtain ⟨zs, hz, h⟩ := bind_eq_ok h
      simp only [pure, Except.pure, Except.ok.injEq, Prod.mk.injEq] at h
      obtain ⟨rfl, -⟩ := h
      exact iter_swap_perm _ _ _ _ hz
    · by_cases hd3 : dist = 3
      · rw [if_neg hd2, if_pos hd3] at h
        obtain ⟨middle, -, h⟩ := bind_eq_ok h
        obtain ⟨v, -, h⟩ := bind_eq_ok h
        split at h
        · obtain ⟨zs, hz, h⟩ := bind_eq_ok h
          obtain ⟨ws, hw, h⟩ := bind_eq_ok h
          simp only [pure, Except.pure, Except.ok.injEq, Prod.mk.injEq] at h
          obtain ⟨rfl, -⟩ := h
          exact (iter_swap_perm _ _ _ _ hw).trans (iter_swap_perm _ _ _ _ hz)
        · obtain ⟨zs, hz, h⟩ := bind_eq_ok h
          obtain ⟨ws, hw, h⟩ := bind_eq_ok h
          simp only [pure, Except.pure, Except.ok.injEq, Prod.mk.injEq] at h
          obtain ⟨rfl, -⟩ := h
          exact (iter_swap_perm _ _ _ _ hw).trans (iter_swap_perm _ _ _ _ hz)
      · rw [if_neg hd2, if_neg hd3] at h
        obtain ⟨middle, -, h⟩ := bind_eq_ok h
        obtain ⟨m0, -, h⟩ := bind_eq_ok h
        obtain ⟨⟨m1, len_half⟩, -, h⟩ := bind_eq_ok h
        simp only at h
        have hright : ∀ (zs : List α) (ff : Nat), zs.Perm xs →
            (do
              match ← stable_partition_fn.scan_fwd pred proj last (zs.drop middle) middle with
              | none => rotate zs ff middle (last + 1)
              | some m2 => do
                let (ws, last_false) ←
                  stable_partition_fn.impl_unbuffered pred proj fuel zs m2 last
                    (dist - dist / 2)
                rotate ws ff middle last_false) = Except.ok (ys, r) → ys.Perm xs := by
          intro zs ff hzs hh
          obtain ⟨o, -, hh⟩ := bind_eq_ok hh
          cases o with
          | none => exact (rotate_perm _ _ _ _ _ _ hh).trans hzs
          | some m2 =>
            obtain ⟨⟨ws, last_false⟩, hw, hh⟩ := bind_eq_ok hh
            exact ((rotate_perm _ _ _ _ _ _ hh).trans (ih _ _ _ _ _ _ hw)).trans hzs
        split at h
        · obtain ⟨⟨zs, ff⟩, hz, h⟩ := bind_eq_ok h
          simp only [pure, Except.pure, Except.ok.injEq, Prod.mk.injEq] at hz
          obtain ⟨rfl, -⟩ := hz
          exact hright _ ff (List.Perm.refl _) h
        · obtain ⟨⟨zs, ff⟩, hz, h⟩ := bind_eq_ok h
          exact hright zs ff (ih _ _ _ _ _ _ hz) h

/-- Whenever `stable_partition` returns, the sequence it leaves is a permutation of the
input. -/
theorem stable_partition_perm_of_ok (xs ys : List α) (r : Nat)
    (h : stable_partition pred proj xs = .ok (ys, r)) : ys.Perm xs := by
  unfold stable_partition stable_partition_fn.impl at h
  obtain ⟨t, -, h⟩ := bind_eq_ok h
  cases t with
  | inl r0 =>
    simp only [pure, Except.pure, Except.ok.injEq, Prod.mk.injEq] at h
    rw [← h.1]
  | inr first =>
    simp only at h
    obtain ⟨t2, -, h⟩ := bind_eq_ok h
    cases t2 with
    | inl r0 =>
      simp only [pure, Except.pure, Except.ok.injEq, Prod.mk.injEq] at h
      rw [← h.1]
    | inr last =>
      exact stable_partition_fn.impl_unbuffered_perm pred proj _ _ _ _ _ _ _ h
end runs

/-! ## The examples of the specification -/

/-- Example 1: merging `[1, 3, 5]` and `[2, 4, 6]`. -/
theorem example_merge_interleaved : merged less id id [1, 3, 5] [2, 4, 6] = [1, 2, 3, 4, 5, 6] := by
  simp [merged, merge, merge_fn.impl, merge_fn.impl_loop, less, copy, output_iterator.put]

/-- Example 2: merging `[1, 2, 2]` and `[2, 3]`; the 2's of the first input come first. -/
theorem example_merge_ties :
    merged less id id [1, 2, 2] [2, 3] = [1, 2, 2, 2, 3] ∧
      merged_tagged less id id [1, 2, 2] [2, 3]
        = [Sum.inl 1, Sum.inl 2, Sum.inl 2, Sum.inr 2, Sum.inr 3] := by
  constructor <;>
    simp [merged, merged_tagged, merge, merge_fn.impl, merge_fn.impl_loop, less, copy,
      output_iterator.put]

/-- Example 3: partitioning `[1, 2, 3, 4, 5]` by "is even". -/
theorem example_partition_mixed :
    stable_partition isEven id [1, 2, 3, 4, 5] = .ok ([2, 4, 1, 3, 5], 2) := by
  rfl

/-- Example 4: the empty sequence. -/
theorem example_partition_empty :
    stable_partition isEven id ([] : List Nat) = .ok ([], 0) := by
  rfl

/-- Example 5: an all-true sequence. -/
theorem example_partition_all_true :
    stable_partition isEven id [2, 2, 2] = .ok ([2, 2, 2], 3) := by
  rfl

/-! ## Stable partition: the claims -/

/-- C1 (the code departs from the claim): on `[1, 3, 5, 2, 7, 9, 4, 11]` with the predicate
"is even", `stable_partition` returns the boundary 1 and leaves
`[2, 1, 3, 5, 7, 9, 11, 4]`: the even element 4 stands after the boundary, so the boundary
does not partition the sequence. -/
theorem stable_partition_boundary_fails :
    stable_partition isEven id [1, 3, 5, 2, 7, 9, 4, 11]
        = .ok ([2, 1, 3, 5, 7, 9, 11, 4], 1) ∧
      ¬ is_partitioned_at isEven id [2, 1, 3, 5, 7, 9, 11, 4] 1 :=
  ⟨by rfl, by decide⟩

/-- C2 (the code departs from the claim): on `[1, 3, 5, 7, 2, 4, 9, 11, 6, 13, 15]` with the
predicate "is even", `stable_partition` leaves `[2, 4, 15, 6, 1, 3, 5, 7, 9, 11, 13]`: the
odd element 15, last of the odd elements in the input, now stands before all the others. -/
theorem stable_partition_order_fails :
    stable_partition isEven id [1, 3, 5, 7, 2, 4, 9, 11, 6, 13, 15]
        = .ok ([2, 4, 15, 6, 1, 3, 5, 7, 9, 11, 13], 4) ∧
      [2, 4, 15, 6, 1, 3, 5, 7, 9, 11, 13].filter (fun x => !isEven (id x))
        ≠ [1, 3, 5, 7, 2, 4, 9, 11, 6, 13, 15].filter (fun x => !isEven (id x)) :=
  ⟨by rfl, by decide⟩

/-- C3 (the code departs from the claim): on `[1, 3, 5, 2, 7, 9, 4]` with the predicate
"is even", `stable_partition` reads the past-the-end position 7, so the run has no defined
result and leaves no permutation of the input. -/
theorem stable_partition_reads_past_end :
    stable_partition isEven id [1, 3, 5, 2, 7, 9, 4] = .error .outOfRange := by
  rfl

/-- C9: on a sequence that is already partitioned, a run `ts` of predicate-true elements
followed by a run `fs` of predicate-false elements (either may be empty), `stable_partition`
leaves the sequence unchanged and returns `begin` advanced by the number of predicate-true
elements. -/
theorem stable_partition_already_partitioned {α β : Type} (pred : β → Bool) (proj : α → β)
    (ts fs : List α) (ht : ∀ x ∈ ts, pred (proj x) = true)
    (hf : ∀ x ∈ fs, pred (proj x) = false) :
    stable_partition pred proj (ts ++ fs) = .ok (ts ++ fs, ts.length) ∧
      ts.length = ((ts ++ fs).filter (fun x => pred (proj x))).length := by
  constructor
  · unfold stable_partition stable_partition_fn.impl
    rw [List.drop_zero, stable_partition_fn.trim_front_true_run pred proj _ ts fs 0 ht
      (by simp)]
    cases fs with
    | nil => simp [stable_partition_fn.trim_front, bind, Except.bind, pure, Except.pure]
    | cons f fs =>
      have hf0 : pred (proj f) = false := hf f (List.mem_cons_self _ _)
      have hne : 0 + ts.length ≠ (ts ++ f :: fs).length := by
        simp only [List.length_append, List.length_cons]; omega
      rw [stable_partition_fn.trim_front, if_neg hne]
      simp only [hf0, Bool.not_false, if_true, bind, Except.bind, pure, Except.pure]
      have hlen : (ts ++ f :: fs).length = (0 + ts.length) + 1 + fs.length := by
        simp only [List.length_append, List.length_cons]; omega
      rw [hlen, stable_partition_fn.trim_back_false_run pred proj (ts ++ f :: fs)
        (0 + ts.length) fs.length ?_]
      · simp
      · intro i h1 h2
        obtain ⟨k, rfl⟩ : ∃ k, i = ts.length + 1 + k := ⟨i - ts.length - 1, by omega⟩
        have hk : k < fs.length := by omega
        refine ⟨fs[k], ?_, hf _ (List.mem_cons_of_mem _ (List.getElem_mem hk))⟩
        rw [List.getElem?_append_right (by omega),
          show ts.length + 1 + k - ts.length = k + 1 by omega, List.getElem?_cons_succ]
        exact List.getElem?_eq_getElem hk
  · rw [List.filter_append, List.length_append]
    rw [List.filter_eq_self.2 (fun x hx => ht x hx), List.filter_eq_nil_iff.2
      (fun x hx => by simp [hf x hx])]
    simp

theorem stable_partition_already_partitioned_witness :
    stable_partition isEven id ([2, 2, 2] ++ [1, 3]) = .ok ([2, 2, 2] ++ [1, 3], 3) ∧
      [2, 2, 2].length = (([2, 2, 2] ++ [1, 3]).filter (fun x => isEven (id x))).length :=
  stable_partition_already_partitioned isEven id [2, 2, 2] [1, 3] (by decide) (by decide)

/-- C10 (the code departs from the claim): on `[1, 3, 2, 5, 4]` with the predicate "is even",
`impl_unbuffered(0, 4, 5)` calls `impl_unbuffered(3, 4, 3)` on its right half: the closed
range `[3, 4]` has 2 elements, not 3. -/
theorem impl_unbuffered_dist_overstated :
    stable_partition_calls isEven id [1, 3, 2, 5, 4]
        = .ok (([2, 4, 1, 3, 5], 2),
            [⟨[1, 3, 2, 5, 4], 0, 4, 5⟩, ⟨[1, 3, 2, 5, 4], 3, 4, 3⟩]) ∧
      ¬ Invocation.holds isEven id ⟨[1, 3, 2, 5, 4], 3, 4, 3⟩ ∧
      (3 : Nat) ≠ distance 3 4 + 1 :=
  ⟨by rfl, by decide, by decide⟩

/-! ## Stable partition: the steps of `impl_unbuffered` -/

section steps

variable {α β : Type} (pred : β → Bool) (proj : α → β)

/-- For `dist > 3`, `impl_unbuffered` is: the left half, the forward scan, the right
recursive call, and the rotation that combines the two halves. -/
theorem stable_partition_fn.impl_unbuffered_step (fuel : Nat) (xs : List α)
    (first last dist : Nat) (h2 : dist ≠ 2) (h3 : dist ≠ 3) :
    stable_partition_fn.impl_unbuffered pred proj (fuel + 1) xs first last dist =
      (do
        let middle ← next xs first (dist / 2)
        let (ys, first_false) ←
          stable_partition_fn.left_half pred proj fuel xs first middle (dist / 2)
        match ← stable_partition_fn.scan_fwd pred proj last (ys.drop middle) middle with
        | none => rotate ys first_false middle (last + 1)
        | some m1 => do
          let (zs, last_false) ←
            stable_partition_fn.impl_unbuffered pred proj fuel ys m1 last (dist - dist / 2)
          rotate zs first_false middle last_false) := by
  rw [stable_partition_fn.impl_unbuffered]
  unfold stable_partition_fn.left_half
  simp only [if_neg h2, if_neg h3]
  cases next xs first (dist / 2) with
  | error e => rfl
  | ok middle =>
    simp only [bind, Except.bind]
    cases prev middle with
    | error e => rfl
    | ok m0 =>
      simp only
      cases stable_partition_fn.scan_back pred proj xs first m0 (dist / 2) with
      | error e => rfl
      | ok r =>
        obtain ⟨m1, len_half⟩ := r
        simp only
        split
        · rfl
        · cases stable_partition_fn.impl_unbuffered pred proj fuel xs first m1 len_half with
          | error e => rfl
          | ok r1 => rfl

end steps

/-! ## Stable partition: what the trimming loops establish -/

section trim_post

variable {α β : Type} (pred : β → Bool) (proj : α → β)

/-- When the first loop of `impl` is left by `break`, it has stepped over a run of
predicate-true elements and stands on a predicate-false element. -/
theorem stable_partition_fn.trim_front_post (last : Nat) (ys : List α) (first f : Nat)
    (h : stable_partition_fn.trim_front pred proj last ys first = .ok (Sum.inr f)) :
    ∃ ts v rest, ys = ts ++ v :: rest ∧ f = first + ts.length ∧
      (∀ x ∈ ts, pred (proj x) = true) ∧ pred (proj v) = false := by
  induction ys generalizing first with
  | nil =>
    unfold stable_partition_fn.trim_front at h
    split at h <;> simp [pure, Except.pure] at h
  | cons v rest ih =>
    unfold stable_partition_fn.trim_front at h
    split at h
    · simp [pure, Except.pure] at h
    · cases hp : pred (proj v) with
      | false =>
        simp only [hp, Bool.not_false, if_true, pure, Except.pure, Except.ok.injEq,
          Sum.inr.injEq] at h
        exact ⟨[], v, rest, rfl, by simp [h], by simp, hp⟩
      | true =>
        simp only [hp, Bool.not_true, Bool.false_eq_true, if_false] at h
        obtain ⟨ts, w, rest', e, hf, ht, hw⟩ := ih (first + 1) h
        refine ⟨v :: ts, w, rest', by simp [e], by simp [hf]; omega, ?_, hw⟩
        intro x hx
        rcases List.mem_cons.1 hx with rfl | hx'
        · exact hp
        · exact ht x hx'

/-- When the second loop of `impl` is left by `break`, it has stepped back over a run of
predicate-false elements and stands on a predicate-true element. -/
theorem stable_partition_fn.trim_back_post (xs : List α) (first last l : Nat)
    (h : stable_partition_fn.trim_back pred proj xs first last = .ok (Sum.inr l)) :
    l < last ∧ (∃ v, xs[l]? = some v ∧ pred (proj v) = true) ∧
      ∀ i, l < i → i < last → ∃ v, xs[i]? = some v ∧ pred (proj v) = false := by
  induction last with
  | zero => simp [stable_partition_fn.trim_back] at h
  | succ last ih =>
    unfold stable_partition_fn.trim_back at h
    split at h
    · simp [pure, Except.pure] at h
    · unfold deref at h
      cases hx : xs[last]? with
      | none => simp [hx, bind, Except.bind] at h
      | some v =>
        simp only [hx, bind, Except.bind] at h
        cases hp : pred (proj v) with
        | true =>
          simp only [hp, if_true, pure, Except.pure, Except.ok.injEq, Sum.inr.injEq] at h
          subst h
          exact ⟨by omega, ⟨v, hx, hp⟩, fun i h1 h2 => by omega⟩
        | false =>
          simp only [hp, Bool.false_eq_true, if_false] at h
          obtain ⟨h1, h2, h3⟩ := ih h
          refine ⟨by omega, h2, fun i hi1 hi2 => ?_⟩
          by_cases hl : i = last
          · subst hl
            exact ⟨v, hx, hp⟩
          · exact h3 i hi1 (by omega)

end trim_post

/-- C11: when neither loop of `impl` returns early (both are left by `break`, at `first` and
at `last`), `impl` hands the closed range `[first, last]` to `impl_unbuffered` with
`dist = distance(first, last) + 1`, which is the number of elements of the range and at
least 2; the element at `first` is predicate-false, the element at `last` is
predicate-true, every element before `first` is predicate-true and every element after
`last` is predicate-false. -/
theorem impl_trim_postcondition {α β : Type} (pred : β → Bool) (proj : α → β) (xs : List α)
    (first last : Nat)
    (hf : stable_partition_fn.trim_front pred proj xs.length xs 0 = .ok (Sum.inr first))
    (hb : stable_partition_fn.trim_back pred proj xs first xs.length = .ok (Sum.inr last)) :
    stable_partition pred proj xs =
        stable_partition_fn.impl_unbuffered pred proj (distance first last + 1) xs first last
          (distance first last + 1) ∧
      Invocation.holds pred proj ⟨xs, first, last, distance first last + 1⟩ ∧
      first < last ∧ last < xs.length ∧
      distance first last + 1 = ((xs.drop first).take (last + 1 - first)).length ∧
      (∀ x ∈ xs.take first, pred (proj x) = true) ∧
      (∀ x ∈ xs.drop (last + 1), pred (proj x) = false) := by
  obtain ⟨ts, v, rest, e, hfl, ht, hv⟩ :=
    stable_partition_fn.trim_front_post pred proj xs.length xs 0 first hf
  have hfirst : first = ts.length := by omega
  have hlt := (stable_partition_fn.trim_front_spec pred proj _ _ _).2 first hf (Nat.zero_le _)
  have hlt2 := (stable_partition_fn.trim_back_spec pred proj _ _ _).2 last hb hlt
  obtain ⟨hl1, ⟨w, hw, hpw⟩, hl3⟩ :=
    stable_partition_fn.trim_back_post pred proj xs first xs.length last hb
  have hxf : xs[first]? = some v := by
    rw [e, hfirst, List.getElem?_append_right (Nat.le_refl _)]
    simp
  have hinv : Invocation.holds pred proj ⟨xs, first, last, distance first last + 1⟩ := by
    unfold Invocation.holds
    refine ⟨rfl, ?_, ?_, ?_⟩
    · show 2 ≤ distance first last + 1
      unfold distance
      omega
    · show xs[first]?.map (fun v => pred (proj v)) = some false
      simp [hxf, hv]
    · show xs[last]?.map (fun v => pred (proj v)) = some true
      simp [hw, hpw]
  refine ⟨?_, hinv, hlt2, hl1, ?_, ?_, ?_⟩
  · unfold stable_partition stable_partition_fn.impl
    rw [List.drop_zero, hf]
    simp only [bind, Except.bind, hb]
  · simp only [List.length_take, List.length_drop, distance]
    omega
  · intro x hx
    rw [e, hfirst, List.take_left] at hx
    exact ht x hx
  · intro x hx
    obtain ⟨i, hi, rfl⟩ := List.getElem_of_mem hx
    rw [List.length_drop] at hi
    obtain ⟨u, hu, hpu⟩ := hl3 (last + 1 + i) (by omega) (by omega)
    rw [List.getElem_drop]
    have : xs[last + 1 + i]? = some xs[last + 1 + i] := List.getElem?_eq_getElem (by omega)
    rw [this] at hu
    rw [Option.some.inj hu]
    exact hpu

theorem impl_trim_postcondition_witness :
    stable_partition_fn.trim_front isEven id [2, 1, 4, 3].length [2, 1, 4, 3] 0
        = .ok (Sum.inr 1) ∧
      stable_partition_fn.trim_back isEven id [2, 1, 4, 3] 1 [2, 1, 4, 3].length
        = .ok (Sum.inr 2) ∧
      Invocation.holds isEven id ⟨[2, 1, 4, 3], 1, 2, distance 1 2 + 1⟩ :=
  ⟨rfl, rfl, (impl_trim_postcondition isEven id [2, 1, 4, 3] 1 2 rfl rfl).2.1⟩

/-! ## Stable partition: the base cases of `impl_unbuffered` -/

section base_cases

variable {α : Type}

/-- Swapping two positions behind a prefix is swapping them in the rest. -/
theorem iter_swap_append (pre l : List α) (i j : Nat) :
    iter_swap (pre ++ l) (pre.length + i) (pre.length + j) =
      (iter_swap l i j).map (fun ys => pre ++ ys) := by
  unfold iter_swap deref
  rw [List.getElem?_append_right (Nat.le_add_right _ _),
    List.getElem?_append_right (Nat.le_add_right _ _), Nat.add_sub_cancel_left,
    Nat.add_sub_cancel_left]
  cases hi : l[i]? with
  | none => rfl
  | some a =>
    cases hj : l[j]? with
    | none => rfl
    | some b =>
      simp only [bind, Except.bind, pure, Except.pure, Except.map]
      rw [List.set_append_right _ _ (Nat.le_add_right _ _), Nat.add_sub_cancel_left,
        List.set_append_right _ _ (by simp), Nat.add_sub_cancel_left]

end base_cases

/-- C12: the base cases of `impl_unbuffered`.  On a closed range of exactly 2 elements `a, b`
or exactly 3 elements `a, m, b`, with `a` predicate-false and `b` predicate-true, called with
`dist` equal to the size, the range is left stably partitioned (its predicate-true elements
in their order, then its predicate-false elements in their order), the rest of the sequence
is untouched, and the boundary returned is the position of the first predicate-false
element: `last` for `dist = 2`; for `dist = 3`, `last` when `m` is predicate-true and
`middle` when it is predicate-false. -/
theorem impl_unbuffered_base_cases {α β : Type} (pred : β → Bool) (proj : α → β) (fuel : Nat)
    (pre post : List α) (a m b : α) (ha : pred (proj a) = false) (hb : pred (proj b) = true) :
    (stable_partition_fn.impl_unbuffered pred proj (fuel + 1) (pre ++ ([a, b] ++ post))
        pre.length (pre.length + 1) 2
      = .ok (pre ++ (([a, b].filter (fun x => pred (proj x))
              ++ [a, b].filter (fun x => !pred (proj x))) ++ post),
            pre.length + ([a, b].filter (fun x => pred (proj x))).length) ∧
      pre.length + ([a, b].filter (fun x => pred (proj x))).length = pre.length + 1) ∧
    (stable_partition_fn.impl_unbuffered pred proj (fuel + 1) (pre ++ ([a, m, b] ++ post))
        pre.length (pre.length + 2) 3
      = .ok (pre ++ (([a, m, b].filter (fun x => pred (proj x))
              ++ [a, m, b].filter (fun x => !pred (proj x))) ++ post),
            pre.length + ([a, m, b].filter (fun x => pred (proj x))).length) ∧
      pre.length + ([a, m, b].filter (fun x => pred (proj x))).length
        = if pred (proj m) then pre.length + 2 else pre.length + 1) := by
  constructor
  · rw [stable_partition_fn.impl_unbuffered, if_pos rfl]
    have e := iter_swap_append pre ([a, b] ++ post) 0 1
    rw [Nat.add_zero] at e
    have hs : iter_swap (pre ++ ([a, b] ++ post)) pre.length (pre.length + 1)
        = .ok (pre ++ ([b, a] ++ post)) := by
      rw [e]
      simp [iter_swap, deref, bind, Except.bind, pure, Except.pure, Except.map]
    simp only [hs, bind, Except.bind, pure, Except.pure]
    simp [List.filter, ha, hb]
  · rw [stable_partition_fn.impl_unbuffered, if_neg (by decide), if_pos rfl]
    have hn : next (pre ++ ([a, m, b] ++ post)) pre.length 1 = .ok (pre.length + 1) := by
      unfold next
      rw [if_pos (by simp)]
    have hd : deref (pre ++ ([a, m, b] ++ post)) (pre.length + 1) = .ok m := by
      unfold deref
      rw [List.getElem?_append_right (Nat.le_add_right _ _), Nat.add_sub_cancel_left]
      rfl
    simp only [hn, hd, bind, Except.bind]
    cases hm : pred (proj m) with
    | true =>
      have e1 := iter_swap_append pre ([a, m, b] ++ post) 0 1
      rw [Nat.add_zero] at e1
      have e2 := iter_swap_append pre ([m, a, b] ++ post) 1 2
      have hs1 : iter_swap (pre ++ ([a, m, b] ++ post)) pre.length (pre.length + 1)
          = .ok (pre ++ ([m, a, b] ++ post)) := by
        rw [e1]
        simp [iter_swap, deref, bind, Except.bind, pure, Except.pure, Except.map]
      have hs2 : iter_swap (pre ++ ([m, a, b] ++ post)) (pre.length + 1) (pre.length + 2)
          = .ok (pre ++ ([m, b, a] ++ post)) := by
        rw [e2]
        simp [iter_swap, deref, bind, Except.bind, pure, Except.pure, Except.map]
      simp only [if_true, hs1, hs2, pure, Except.pure]
      simp [List.filter, ha, hb, hm]
    | false =>
      have e1 := iter_swap_append pre ([a, m, b] ++ post) 1 2
      have e2 := iter_swap_append pre ([a, b, m] ++ post) 0 1
      rw [Nat.add_zero] at e2
      have hs1 : iter_swap (pre ++ ([a, m, b] ++ post)) (pre.length + 1) (pre.length + 2)
          = .ok (pre ++ ([a, b, m] ++ post)) := by
        rw [e1]
        simp [iter_swap, deref, bind, Except.bind, pure, Except.pure, Except.map]
      have hs2 : iter_swap (pre ++ ([a, b, m] ++ post)) pre.length (pre.length + 1)
          = .ok (pre ++ ([b, a, m] ++ post)) := by
        rw [e2]
        simp [iter_swap, deref, bind, Except.bind, pure, Except.pure, Except.map]
      simp only [Bool.false_eq_true, if_false, hs1, hs2, pure, Except.pure]
      simp [List.filter, ha, hb, hm]

theorem impl_unbuffered_base_cases_witness :
    isEven (id 1) = false ∧ isEven (id 2) = true ∧
      stable_partition_fn.impl_unbuffered isEven id 1 ([4] ++ ([1, 2] ++ [5])) 1 2 2
        = .ok ([4] ++ (([1, 2].filter (fun x => isEven (id x))
            ++ [1, 2].filter (fun x => !isEven (id x))) ++ [5]),
          1 + ([1, 2].filter (fun x => isEven (id x))).length) ∧
      stable_partition_fn.impl_unbuffered isEven id 1 ([4] ++ ([1, 3, 2] ++ [5])) 1 3 3
        = .ok ([4] ++ (([1, 3, 2].filter (fun x => isEven (id x))
            ++ [1, 3, 2].filter (fun x => !isEven (id x))) ++ [5]),
          1 + ([1, 3, 2].filter (fun x => isEven (id x))).length) :=
  ⟨rfl, rfl, (impl_unbuffered_base_cases isEven id 0 [4] [5] 1 3 2 rfl rfl).1.1,
    (impl_unbuffered_base_cases isEven id 0 [4] [5] 1 3 2 rfl rfl).2.1⟩

/-! ## Stable partition: the backward scan over the left half -/

section backward_scan

variable {α β : Type} (pred : β → Bool) (proj : α → β)

/-- The backward scan steps over predicate-false elements only, and when it stops before
`first` it stands on a predicate-true element. -/
theorem stable_partition_fn.scan_back_post (xs : List α) (first m0 len : Nat) (r : Nat × Nat)
    (h : stable_partition_fn.scan_back pred proj xs first m0 len = .ok r) :
    (∀ i, r.1 < i → i ≤ m0 → ∃ v, xs[i]? = some v ∧ pred (proj v) = false) ∧
      (r.1 ≠ first → ∃ v, xs[r.1]? = some v ∧ pred (proj v) = true) := by
  induction m0 generalizing len with
  | zero =>
    unfold stable_partition_fn.scan_back at h
    split at h
    · unfold deref at h
      cases hx : xs[0]? with
      | none => simp [hx, bind, Except.bind] at h
      | some v =>
        simp only [hx, bind, Except.bind] at h
        cases hp : pred (proj v) with
        | false => simp [hp] at h
        | true =>
          simp only [hp, Bool.not_true, Bool.false_eq_true, if_false, pure, Except.pure,
            Except.ok.injEq] at h
          subst h
          exact ⟨fun i h1 h2 => by omega, fun _ => ⟨v, hx, hp⟩⟩
    · simp only [pure, Except.pure, Except.ok.injEq] at h
      subst h
      rename_i hne
      exact ⟨fun i h1 h2 => by omega, fun hc => absurd hc (by simpa using hne)⟩
  | succ k ih =>
    unfold stable_partition_fn.scan_back at h
    split at h
    · unfold deref at h
      cases hx : xs[k + 1]? with
      | none => simp [hx, bind, Except.bind] at h
      | some v =>
        simp only [hx, bind, Except.bind] at h
        cases hp : pred (proj v) with
        | false =>
          simp only [hp, Bool.not_false, if_true] at h
          obtain ⟨h1, h2⟩ := ih (len - 1) h
          refine ⟨fun i hi1 hi2 => ?_, h2⟩
          by_cases hk : i = k + 1
          · subst hk
            exact ⟨v, hx, hp⟩
          · exact h1 i hi1 (by omega)
        | true =>
          simp only [hp, Bool.not_true, Bool.false_eq_true, if_false, pure, Except.pure,
            Except.ok.injEq] at h
          subst h
          exact ⟨fun i h1 h2 => by omega, fun _ => ⟨v, hx, hp⟩⟩
    · simp only [pure, Except.pure, Except.ok.injEq] at h
      subst h
      rename_i hne
      exact ⟨fun i h1 h2 => by omega, fun hc => absurd hc (by simpa using hne)⟩

end backward_scan

/-- C13 (the claim, as worded, fails): in `impl_unbuffered(0, 3, 4)` on `[1, 2, 1, 2]` with
the predicate "is even", the backward scan starts at position 1 and stops there at once, on
the predicate-true element 2; on `[1, 3, 2, 4]` it reaches `first = 0` and the left half
`[1, 3]` is all predicate-false. -/
theorem backward_scan_polarity :
    stable_partition_fn.scan_back isEven id [1, 2, 1, 2] 0 (0 + 4 / 2 - 1) (4 / 2) = .ok (1, 2) ∧
      ([1, 2, 1, 2][1]?).map (fun v => isEven (id v)) = some true ∧
      stable_partition_fn.scan_back isEven id [1, 3, 2, 4] 0 (0 + 4 / 2 - 1) (4 / 2)
        = .ok (0, 1) ∧
      ([1, 3, 2, 4].take 2).all (fun v => !isEven (id v)) = true ∧
      ([1, 3, 2, 4].take 2).all (fun v => isEven (id v)) = false :=
  ⟨rfl, rfl, rfl, rfl, rfl⟩

/-- C13, amended: in `impl_unbuffered` with `dist > 3`, the backward scan that starts at the
element just before `middle` and moves toward `first` steps over predicate-false elements
and stops at the first predicate-true element it finds; when it reaches `first` without
stopping, every element of the left half after `first` is predicate-false (every element of
`[first, middle)` when the element at `first` is predicate-false) and `first_false` is set
to `first`, the sequence being left as it is. -/
theorem backward_scan_postcondition {α β : Type} (pred : β → Bool) (proj : α → β)
    (fuel : Nat) (xs : List α) (first dist : Nat) (h4 : 3 < dist) (m1 len_half : Nat)
    (h : stable_partition_fn.scan_back pred proj xs first (first + dist / 2 - 1) (dist / 2)
      = .ok (m1, len_half)) :
    first ≤ m1 ∧ m1 < first + dist / 2 ∧ len_half = distance first m1 + 1 ∧
      (∀ i, m1 < i → i < first + dist / 2 → ∃ v, xs[i]? = some v ∧ pred (proj v) = false) ∧
      (m1 ≠ first → ∃ v, xs[m1]? = some v ∧ pred (proj v) = true) ∧
      (m1 = first →
        stable_partition_fn.left_half pred proj fuel xs first (first + dist / 2) (dist / 2)
            = .ok (xs, first) ∧
          ((∃ v, xs[first]? = some v ∧ pred (proj v) = false) →
            ∀ i, first ≤ i → i < first + dist / 2 →
              ∃ v, xs[i]? = some v ∧ pred (proj v) = false)) := by
  have hhalf : 2 ≤ dist / 2 := by omega
  obtain ⟨s1, s2, s3⟩ := stable_partition_fn.scan_back_spec pred proj xs first
    (first + dist / 2 - 1) (dist / 2) (m1, len_half) h (by omega) (by omega)
  obtain ⟨p1, p2⟩ := stable_partition_fn.scan_back_post pred proj xs first
    (first + dist / 2 - 1) (dist / 2) (m1, len_half) h
  simp only at s1 s2 s3 p1 p2
  refine ⟨s1, by omega, by unfold distance; omega, fun i h1 h2 => p1 i h1 (by omega), p2, ?_⟩
  intro hm
  constructor
  · unfold stable_partition_fn.left_half
    have hp : prev (first + dist / 2) = .ok (first + dist / 2 - 1) := by
      obtain ⟨k, hk⟩ : ∃ k, first + dist / 2 = k + 1 := ⟨first + dist / 2 - 1, by omega⟩
      rw [hk]
      rfl
    simp only [hp, h, bind, Except.bind, if_pos hm]
    rfl
  · rintro ⟨v, hv, hpv⟩ i h1 h2
    by_cases hi : i = first
    · subst hi
      exact ⟨v, hv, hpv⟩
    · exact p1 i (by omega) (by omega)

theorem backward_scan_postcondition_witness :
    3 < 4 ∧
      stable_partition_fn.scan_back isEven id [1, 3, 2, 4] 0 (0 + 4 / 2 - 1) (4 / 2)
        = .ok (0, 1) ∧
      stable_partition_fn.left_half isEven id 3 [1, 3, 2, 4] 0 (0 + 4 / 2) (4 / 2)
        = .ok ([1, 3, 2, 4], 0) :=
  ⟨by decide, rfl,
    ((backward_scan_postcondition isEven id 3 [1, 3, 2, 4] 0 4 (by decide) 0 1 rfl).2.2.2.2.2
      rfl).1⟩

/-! ## Stable partition: the rotation that combines the two halves -/

section combine

variable {α : Type}

/-- The rotation of `[first_false, last_false)` around `middle`, on a sequence given by its
blocks: `T1` is `[first, first_false)`, `F1` is `[first_false, middle)`, `T2` is
`[middle, last_false)`, `F2` is `[last_false, last]`. -/
theorem rotate_four_blocks (pre T1 F1 T2 F2 post : List α) :
    rotate (pre ++ (T1 ++ (F1 ++ (T2 ++ (F2 ++ post))))) (pre.length + T1.length)
        (pre.length + T1.length + F1.length) (pre.length + T1.length + F1.length + T2.length)
      = .ok (pre ++ ((T1 ++ T2) ++ ((F1 ++ F2) ++ post)),
          pre.length + T1.length + T2.length) := by
  have t1 : (pre ++ (T1 ++ (F1 ++ (T2 ++ (F2 ++ post))))).take (pre.length + T1.length)
      = pre ++ T1 := by
    rw [← List.append_assoc]
    exact List.take_left' (by simp)
  have d1 : (pre ++ (T1 ++ (F1 ++ (T2 ++ (F2 ++ post))))).drop (pre.length + T1.length)
      = F1 ++ (T2 ++ (F2 ++ post)) := by
    rw [← List.append_assoc]
    exact List.drop_left' (by simp)
  have d2 : (pre ++ (T1 ++ (F1 ++ (T2 ++ (F2 ++ post))))).drop
      (pre.length + T1.length + F1.length) = T2 ++ (F2 ++ post) := by
    rw [← List.append_assoc, ← List.append_assoc]
    exact List.drop_left' (by simp only [List.length_append])
  have d3 : (pre ++ (T1 ++ (F1 ++ (T2 ++ (F2 ++ post))))).drop
      (pre.length + T1.length + F1.length + T2.length) = F2 ++ post := by
    rw [← List.append_assoc, ← List.append_assoc, ← List.append_assoc]
    exact List.drop_left' (by simp only [List.length_append])
  unfold rotate
  rw [if_pos (by simp only [List.length_append]; omega), t1, d1, d2, d3,
    show pre.length + T1.length + F1.length + T2.length - (pre.length + T1.length + F1.length)
      = T2.length by omega,
    show pre.length + T1.length + F1.length - (pre.length + T1.length) = F1.length by omega,
    List.take_left' rfl, List.take_left' rfl]
  simp

end combine

/-- C14: the combine step of `impl_unbuffered`.  When `[first, first_false)` is all
predicate-true (`T1`), `[first_false, middle)` all predicate-false (`F1`),
`[middle, last_false)` all predicate-true (`T2`) and `[last_false, last]` all
predicate-false (`F2`), the rotation of `[first_false, last_false)` around `middle` leaves
`[first, last]` as the predicate-true elements in their order followed by the
predicate-false elements in their order, the rest of the sequence untouched, and returns
`first_false` advanced by `distance(middle, last_false)`, the position of the first
predicate-false element.  The shortcut for an all-true right half is the instance
`F2 = []`, where `last_false` is `last + 1`. -/
theorem combine_step {α β : Type} (pred : β → Bool) (proj : α → β)
    (pre T1 F1 T2 F2 post : List α)
    (hT1 : ∀ x ∈ T1, pred (proj x) = true) (hF1 : ∀ x ∈ F1, pred (proj x) = false)
    (hT2 : ∀ x ∈ T2, pred (proj x) = true) (hF2 : ∀ x ∈ F2, pred (proj x) = false) :
    rotate (pre ++ (T1 ++ (F1 ++ (T2 ++ (F2 ++ post))))) (pre.length + T1.length)
        (pre.length + T1.length + F1.length) (pre.length + T1.length + F1.length + T2.length)
      = .ok (pre ++ (((T1 ++ (F1 ++ (T2 ++ F2))).filter (fun x => pred (proj x))
              ++ (T1 ++ (F1 ++ (T2 ++ F2))).filter (fun x => !pred (proj x))) ++ post),
          pre.length + T1.length
            + distance (pre.length + T1.length + F1.length)
                (pre.length + T1.length + F1.length + T2.length)) ∧
      (T1 ++ (F1 ++ (T2 ++ F2))).filter (fun x => pred (proj x)) = T1 ++ T2 ∧
      (T1 ++ (F1 ++ (T2 ++ F2))).filter (fun x => !pred (proj x)) = F1 ++ F2 ∧
      pre.length + T1.length
          + distance (pre.length + T1.length + F1.length)
              (pre.length + T1.length + F1.length + T2.length)
        = pre.length + ((T1 ++ (F1 ++ (T2 ++ F2))).filter (fun x => pred (proj x))).length := by
  have fT : ∀ l : List α, (∀ x ∈ l, pred (proj x) = true) →
      l.filter (fun x => pred (proj x)) = l ∧ l.filter (fun x => !pred (proj x)) = [] := by
    intro l hl
    exact ⟨List.filter_eq_self.2 hl, List.filter_eq_nil_iff.2 (fun x hx => by simp [hl x hx])⟩
  have fF : ∀ l : List α, (∀ x ∈ l, pred (proj x) = false) →
      l.filter (fun x => pred (proj x)) = [] ∧ l.filter (fun x => !pred (proj x)) = l := by
    intro l hl
    exact ⟨List.filter_eq_nil_iff.2 (fun x hx => by simp [hl x hx]),
      List.filter_eq_self.2 (fun x hx => by simp [hl x hx])⟩
  have e1 : (T1 ++ (F1 ++ (T2 ++ F2))).filter (fun x => pred (proj x)) = T1 ++ T2 := by
    simp only [List.filter_append, (fT T1 hT1).1, (fF F1 hF1).1, (fT T2 hT2).1, (fF F2 hF2).1,
      List.nil_append, List.append_nil]
  have e2 : (T1 ++ (F1 ++ (T2 ++ F2))).filter (fun x => !pred (proj x)) = F1 ++ F2 := by
    simp only [List.filter_append, (fT T1 hT1).2, (fF F1 hF1).2, (fT T2 hT2).2, (fF F2 hF2).2,
      List.nil_append, List.append_nil]
  refine ⟨?_, e1, e2, ?_⟩
  · rw [rotate_four_blocks, e1, e2]
    have hd : pre.length + T1.length + distance (pre.length + T1.length + F1.length)
        (pre.length + T1.length + F1.length + T2.length)
        = pre.length + T1.length + T2.length := by
      unfold distance
      omega
    rw [hd]
    simp
  · rw [e1, List.length_append]
    unfold distance
    omega

theorem combine_step_witness :
    (∀ x ∈ [2], isEven (id x) = true) ∧ (∀ x ∈ [1, 3], isEven (id x) = false) ∧
      (∀ x ∈ [4, 6], isEven (id x) = true) ∧ (∀ x ∈ [5], isEven (id x) = false) ∧
      rotate ([0] ++ ([2] ++ ([1, 3] ++ ([4, 6] ++ ([5] ++ [7]))))) 2 4 6
        = .ok ([0, 2, 4, 6, 1, 3, 5, 7], 4) :=
  ⟨by decide, by decide, by decide, by decide,
    (combine_step isEven id [0] [2] [1, 3] [4, 6] [5] [7] (by decide) (by decide) (by decide)
      (by decide)).1⟩

/-! ## Merge: the loop against its recursive description, and interleaving -/

section merge_interleave

variable {α₁ α₂ γ ω : Type} (comp : γ → γ → Bool) (proj1 : α₁ → γ) (proj2 : α₂ → γ)
  (conv1 : α₁ → ω) (conv2 : α₂ → ω)

/-- What `merge` writes is the image, under the two conversions, of what it writes with every
element marked by its origin. -/
theorem merge_ref_map_tagged (A : List α₁) (B : List α₂) :
    merge_ref comp proj1 proj2 conv1 conv2 A B =
      (merge_ref comp proj1 proj2 (Sum.inl : α₁ → α₁ ⊕ α₂) Sum.inr A B).map
        (Sum.elim conv1 conv2) := by
  induction A generalizing B with
  | nil => simp [merge_ref_nil_left]
  | cons a A ihA =>
    induction B with
    | nil => simp [merge_ref_nil_right]
    | cons b B ihB =>
      rw [merge_ref_cons_cons, merge_ref_cons_cons]
      split
      · rw [ihB]; rfl
      · rw [ihA (b :: B)]; rfl

theorem merge_ref_tagged_left (A : List α₁) (B : List α₂) :
    (merge_ref comp proj1 proj2 (Sum.inl : α₁ → α₁ ⊕ α₂) Sum.inr A B).filterMap Sum.getLeft?
      = A := by
  induction A generalizing B with
  | nil =>
    rw [merge_ref_nil_left]
    induction B with
    | nil => rfl
    | cons b B ih => simp [List.filterMap_cons]
  | cons a A ihA =>
    induction B with
    | nil =>
      rw [merge_ref_nil_right, List.filterMap_map]
      have : (Sum.getLeft? ∘ (Sum.inl : α₁ → α₁ ⊕ α₂)) = some := by
        funext x; rfl
      rw [this, List.filterMap_some]
    | cons b B ihB =>
      rw [merge_ref_cons_cons]
      split
      · simpa [List.filterMap_cons] using ihB
      · simpa [List.filterMap_cons] using ihA (b :: B)

theorem merge_ref_tagged_right (A : List α₁) (B : List α₂) :
    (merge_ref comp proj1 proj2 (Sum.inl : α₁ → α₁ ⊕ α₂) Sum.inr A B).filterMap Sum.getRight?
      = B := by
  induction A generalizing B with
  | nil =>
    rw [merge_ref_nil_left, List.filterMap_map]
    have : (Sum.getRight? ∘ (Sum.inr : α₂ → α₁ ⊕ α₂)) = some := by
      funext x; rfl
    rw [this, List.filterMap_some]
  | cons a A ihA =>
    induction B with
    | nil =>
      rw [merge_ref_nil_right]
      simp [List.filterMap_cons]
    | cons b B ihB =>
      rw [merge_ref_cons_cons]
      split
      · simpa [List.filterMap_cons] using ihB
      · simpa [List.filterMap_cons] using ihA (b :: B)

end merge_interleave

/-- C15: the loop of `merge` writes exactly what the recursive description `merge_ref`
gives, for all inputs, comparator and projections, after whatever the output already held;
and `merge_ref` satisfies `ref([], B) = B`, `ref(A, []) = A`, and
`ref(a :: A, b :: B) = b :: ref(a :: A, B)` when `comp (proj2 b) (proj1 a)` holds,
`a :: ref(A, b :: B)` otherwise: the comparator always takes the projected element of the
second input on the left, and the element of the first input is written whenever that call
is false. -/
theorem merge_refines_merge_ref {α₁ α₂ γ ω : Type} (comp : γ → γ → Bool) (proj1 : α₁ → γ)
    (proj2 : α₂ → γ) (conv1 : α₁ → ω) (conv2 : α₂ → ω) (A : List α₁) (B : List α₂)
    (result : output_iterator ω) :
    (merge comp proj1 proj2 conv1 conv2 A B result).out.written
        = result.written ++ merge_ref comp proj1 proj2 conv1 conv2 A B ∧
      merge_ref comp proj1 proj2 conv1 conv2 [] B = B.map conv2 ∧
      merge_ref comp proj1 proj2 conv1 conv2 A [] = A.map conv1 ∧
      (∀ a A' b B', merge_ref comp proj1 proj2 conv1 conv2 (a :: A') (b :: B') =
        if comp (proj2 b) (proj1 a) = true then
          conv2 b :: merge_ref comp proj1 proj2 conv1 conv2 (a :: A') B'
        else conv1 a :: merge_ref comp proj1 proj2 conv1 conv2 A' (b :: B')) := by
  refine ⟨?_, merge_ref_nil_left _ _ _ _ _ _, merge_ref_nil_right _ _ _ _ _ _,
    fun a A' b B' => merge_ref_cons_cons _ _ _ _ _ _ _ _ _⟩
  unfold merge
  rw [merge_fn.impl_eq]

/-- C18: for all inputs, sorted or not, the output of `merge` is an interleaving of `A` and
`B`.  In the output marked by origin, the elements taken from `A` are exactly `A` in its
order and the elements taken from `B` are exactly `B` in its order; every output position
carries one mark, so the two subsequences are disjoint and cover the output; and what
`merge` writes is that marked output with the marks dropped. -/
theorem merge_interleaving {α₁ α₂ γ ω : Type} (comp : γ → γ → Bool) (proj1 : α₁ → γ)
    (proj2 : α₂ → γ) (conv1 : α₁ → ω) (conv2 : α₂ → ω) (A : List α₁) (B : List α₂)
    (pos : Nat) :
    (merged_tagged comp proj1 proj2 A B).filterMap Sum.getLeft? = A ∧
      (merged_tagged comp proj1 proj2 A B).filterMap Sum.getRight? = B ∧
      (merge comp proj1 proj2 conv1 conv2 A B ⟨pos, []⟩).out.written
        = (merged_tagged comp proj1 proj2 A B).map (Sum.elim conv1 conv2) ∧
      (A.map conv1).Sublist (merge comp proj1 proj2 conv1 conv2 A B ⟨pos, []⟩).out.written ∧
      (B.map conv2).Sublist (merge comp proj1 proj2 conv1 conv2 A B ⟨pos, []⟩).out.written := by
  have ht : merged_tagged comp proj1 proj2 A B
      = merge_ref comp proj1 proj2 Sum.inl Sum.inr A B := by
    unfold merged_tagged merge
    rw [merge_fn.impl_eq]
    simp
  have hw : (merge comp proj1 proj2 conv1 conv2 A B ⟨pos, []⟩).out.written
      = (merged_tagged comp proj1 proj2 A B).map (Sum.elim conv1 conv2) := by
    rw [ht, ← merge_ref_map_tagged]
    unfold merge
    rw [merge_fn.impl_eq]
    simp
  have hl := merge_ref_tagged_left comp proj1 proj2 A B
  have hr := merge_ref_tagged_right comp proj1 proj2 A B
  refine ⟨by rw [ht]; exact hl, by rw [ht]; exact hr, hw, ?_, ?_⟩
  · rw [hw, ht]
    have : A.map conv1 = ((merge_ref comp proj1 proj2 (Sum.inl : α₁ → α₁ ⊕ α₂) Sum.inr A
        B).filter (fun x => x.isLeft)).map (Sum.elim conv1 conv2) := by
      conv_lhs => rw [← hl]
      generalize merge_ref comp proj1 proj2 (Sum.inl : α₁ → α₁ ⊕ α₂) Sum.inr A B = l
      induction l with
      | nil => rfl
      | cons x l ih => cases x <;> simp [List.filterMap_cons, List.filter_cons, ih]
    rw [this]
    exact (List.filter_sublist _).map _
  · rw [hw, ht]
    have : B.map conv2 = ((merge_ref comp proj1 proj2 (Sum.inl : α₁ → α₁ ⊕ α₂) Sum.inr A
        B).filter (fun x => x.isRight)).map (Sum.elim conv1 conv2) := by
      conv_lhs => rw [← hr]
      generalize merge_ref comp proj1 proj2 (Sum.inl : α₁ → α₁ ⊕ α₂) Sum.inr A B = l
      induction l with
      | nil => rfl
      | cons x l ih => cases x <;> simp [List.filterMap_cons, List.filter_cons, ih]
    rw [this]
    exact (List.filter_sublist _).map _

/-! ## Stable partition: the depth of the recursion -/

section depth

variable {α β : Type} (pred : β → Bool) (proj : α → β)

/-- Halving (rounding up) lowers the ceiling of the binary logarithm by one. -/
theorem clog_half (d e : Nat) (h2 : 2 ≤ d) (h : e ≤ (d + 1) / 2) :
    Nat.clog 2 e + 1 ≤ Nat.clog 2 d := by
  rw [Nat.clog_of_two_le (by decide) h2]
  have := Nat.clog_mono_right 2 (show e ≤ (d + 2 - 1) / 2 by omega)
  omega

/-- A recursion budget of `⌈log₂ dist⌉` is never exhausted. -/
theorem stable_partition_fn.impl_unbuffered_depth (fuel : Nat) (xs : List α)
    (first last dist : Nat) (h2 : 2 ≤ dist) (hfuel : Nat.clog 2 dist ≤ fuel) :
    stable_partition_fn.impl_unbuffered pred proj fuel xs first last dist ≠ .error .fuel := by
  induction fuel generalizing xs first last dist with
  | zero =>
    have := Nat.clog_pos (by decide : 1 < 2) h2
    omega
  | succ fuel ih =>
    by_cases hd2 : dist = 2
    · rw [stable_partition_fn.impl_unbuffered, if_pos hd2]
      exact bind_ne_fuel _ _ (iter_swap_ne_fuel _ _ _) (fun _ _ => pure_ne_fuel _)
    · by_cases hd3 : dist = 3
      · rw [stable_partition_fn.impl_unbuffered, if_neg hd2, if_pos hd3]
        refine bind_ne_fuel _ _ (next_ne_fuel _ _ _) (fun middle _ => ?_)
        refine bind_ne_fuel _ _ (deref_ne_fuel _ _) (fun v _ => ?_)
        split
        · refine bind_ne_fuel _ _ (iter_swap_ne_fuel _ _ _) (fun ys _ => ?_)
          exact bind_ne_fuel _ _ (iter_swap_ne_fuel _ _ _) (fun _ _ => pure_ne_fuel _)
        · refine bind_ne_fuel _ _ (iter_swap_ne_fuel _ _ _) (fun ys _ => ?_)
          exact bind_ne_fuel _ _ (iter_swap_ne_fuel _ _ _) (fun _ _ => pure_ne_fuel _)
      · rw [stable_partition_fn.impl_unbuffered_step pred proj fuel xs first last dist hd2 hd3]
        have hhalf : 2 ≤ dist / 2 := by omega
        have hcr : Nat.clog 2 (dist - dist / 2) ≤ fuel := by
          have := clog_half dist (dist - dist / 2) h2 (by omega)
          omega
        refine bind_ne_fuel _ _ (next_ne_fuel _ _ _) (fun middle hmid => ?_)
        have hmid' : middle = first + dist / 2 := by
          unfold next at hmid
          split at hmid
          · exact (Except.ok.inj hmid).symm
          · cases hmid
        refine bind_ne_fuel _ _ ?_ (fun r1 _ => ?_)
        · unfold stable_partition_fn.left_half
          refine bind_ne_fuel _ _ (prev_ne_fuel _) (fun m0 hm0 => ?_)
          refine bind_ne_fuel _ _ (stable_partition_fn.scan_back_ne_fuel pred proj _ _ _ _)
            (fun r hr => ?_)
          obtain ⟨m1, len_half⟩ := r
          have hm0' : m0 + 1 = middle := by
            cases middle with
            | zero => cases hm0
            | succ k => exact congrArg (· + 1) (Except.ok.inj hm0).symm
          have hs := stable_partition_fn.scan_back_spec pred proj xs first m0 (dist / 2)
            (m1, len_half) hr (by omega) (by omega)
          simp only at hs ⊢
          split
          · exact pure_ne_fuel _
          · have := clog_half dist len_half h2 (by omega)
            exact ih xs first m1 len_half (by omega) (by omega)
        · obtain ⟨ys, ff⟩ := r1
          simp only
          refine bind_ne_fuel _ _ (stable_partition_fn.scan_fwd_ne_fuel pred proj _ _ _)
            (fun o _ => ?_)
          cases o with
          | none => exact rotate_ne_fuel _ _ _ _
          | some m2 =>
            refine bind_ne_fuel _ _ (ih ys m2 last _ (by omega) hcr) (fun r2 _ => ?_)
            exact rotate_ne_fuel _ _ _ _

/-- A run that does not exhaust its recursion budget is the same with a larger budget. -/
theorem stable_partition_fn.impl_unbuffered_fuel_succ (fuel : Nat) (xs : List α)
    (first last dist : Nat)
    (h : stable_partition_fn.impl_unbuffered pred proj fuel xs first last dist ≠ .error .fuel) :
    stable_partition_fn.impl_unbuffered pred proj (fuel + 1) xs first last dist
      = stable_partition_fn.impl_unbuffered pred proj fuel xs first last dist := by
  induction fuel generalizing xs first last dist with
  | zero => exact absurd rfl h
  | succ fuel ih =>
    by_cases hd2 : dist = 2
    · rw [stable_partition_fn.impl_unbuffered, stable_partition_fn.impl_unbuffered, if_pos hd2,
        if_pos hd2]
    · by_cases hd3 : dist = 3
      · rw [stable_partition_fn.impl_unbuffered, stable_partition_fn.impl_unbuffered,
          if_neg hd2, if_neg hd2, if_pos hd3, if_pos hd3]
      · rw [stable_partition_fn.impl_unbuffered_step pred proj fuel xs first last dist hd2 hd3]
          at h ⊢
        rw [stable_partition_fn.impl_unbuffered_step pred proj (fuel + 1) xs first last dist
          hd2 hd3]
        cases hn : next xs first (dist / 2) with
        | error e => rfl
        | ok middle =>
          rw [hn] at h
          simp only [bind, Except.bind] at h ⊢
          have hl : stable_partition_fn.left_half pred proj (fuel + 1) xs first middle (dist / 2)
              = stable_partition_fn.left_half pred proj fuel xs first middle (dist / 2) := by
            have h' : stable_partition_fn.left_half pred proj fuel xs first middle (dist / 2)
                ≠ .error .fuel := by
              intro hc
              rw [hc] at h
              exact h rfl
            unfold stable_partition_fn.left_half at h' ⊢
            cases hp : prev middle with
            | error e => rfl
            | ok m0 =>
              rw [hp] at h'
              simp only [bind, Except.bind] at h' ⊢
              cases hs : stable_partition_fn.scan_back pred proj xs first m0 (dist / 2) with
              | error e => rfl
              | ok r =>
                obtain ⟨m1, len_half⟩ := r
                rw [hs] at h'
                simp only at h' ⊢
                split
                · rfl
                · rename_i hne
                  rw [if_neg hne] at h'
                  exact ih xs first m1 len_half h'
          rw [hl]
          cases hlh : stable_partition_fn.left_half pred proj fuel xs first middle (dist / 2) with
          | error e => rfl
          | ok r1 =>
            obtain ⟨ys, ff⟩ := r1
            rw [hlh] at h
            simp only at h ⊢
            cases hsf : stable_partition_fn.scan_fwd pred proj last (List.drop middle ys)
                middle with
            | error e => rfl
            | ok o =>
              rw [hsf] at h
              cases o with
              | none => rfl
              | some m2 =>
                simp only at h ⊢
                have h' : stable_partition_fn.impl_unbuffered pred proj fuel ys m2 last
                    (dist - dist / 2) ≠ .error .fuel := by
                  intro hc
                  rw [hc] at h
                  exact h rfl
                rw [ih ys m2 last (dist - dist / 2) h']

theorem stable_partition_fn.impl_unbuffered_fuel_add (fuel k : Nat) (xs : List α)
    (first last dist : Nat)
    (h : stable_partition_fn.impl_unbuffered pred proj fuel xs first last dist ≠ .error .fuel) :
    stable_partition_fn.impl_unbuffered pred proj (fuel + k) xs first last dist
      = stable_partition_fn.impl_unbuffered pred proj fuel xs first last dist := by
  induction k with
  | zero => rfl
  | succ k ih =>
    rw [← Nat.add_assoc, stable_partition_fn.impl_unbuffered_fuel_succ pred proj (fuel + k) xs
      first last dist (by rw [ih]; exact h), ih]

end depth

/-- C16: the recursion of `impl_unbuffered` has logarithmic depth.  For a call with
`dist ≥ 4`, the left recursive call (made when the backward scan stops at `m1 ≠ first`)
receives `len_half` with `2 ≤ len_half ≤ ⌊dist / 2⌋`, and the right recursive call receives
`dist - ⌊dist / 2⌋ = ⌈dist / 2⌉ ≥ 2`.  Hence a call with `dist ≥ 2` never nests deeper than
`⌈log₂ dist⌉` invocations: with that recursion budget the run does not exhaust it, and any
larger budget (such as the `dist` that `impl` supplies) gives the same run. -/
theorem impl_unbuffered_recursion_depth {α β : Type} (pred : β → Bool) (proj : α → β)
    (xs : List α) (first last dist : Nat) (h2 : 2 ≤ dist) :
    (∀ fuel middle m0 m1 len_half, 4 ≤ dist → next xs first (dist / 2) = .ok middle →
        prev middle = .ok m0 →
        stable_partition_fn.scan_back pred proj xs first m0 (dist / 2) = .ok (m1, len_half) →
        m1 ≠ first →
        stable_partition_fn.left_half pred proj fuel xs first middle (dist / 2)
            = stable_partition_fn.impl_unbuffered pred proj fuel xs first m1 len_half ∧
          2 ≤ len_half ∧ len_half ≤ dist / 2) ∧
      (4 ≤ dist → 2 ≤ dist - dist / 2 ∧ dist - dist / 2 = (dist + 1) / 2) ∧
      stable_partition_fn.impl_unbuffered pred proj (Nat.clog 2 dist) xs first last dist
        ≠ .error .fuel ∧
      (∀ fuel, Nat.clog 2 dist ≤ fuel →
        stable_partition_fn.impl_unbuffered pred proj fuel xs first last dist
          = stable_partition_fn.impl_unbuffered pred proj (Nat.clog 2 dist) xs first last
              dist) := by
  have hdepth := stable_partition_fn.impl_unbuffered_depth pred proj (Nat.clog 2 dist) xs first
    last dist h2 (Nat.le_refl _)
  refine ⟨?_, fun h4 => ⟨by omega, by omega⟩, hdepth, ?_⟩
  · intro fuel middle m0 m1 len_half h4 hmid hm0 hr hne
    have hmid' : middle = first + dist / 2 := by
      unfold next at hmid
      split at hmid
      · exact (Except.ok.inj hmid).symm
      · cases hmid
    have hm0' : m0 + 1 = middle := by
      cases middle with
      | zero => cases hm0
      | succ k => exact congrArg (· + 1) (Except.ok.inj hm0).symm
    have hs := stable_partition_fn.scan_back_spec pred proj xs first m0 (dist / 2)
      (m1, len_half) hr (by omega) (by omega)
    simp only at hs
    refine ⟨?_, by omega, by omega⟩
    unfold stable_partition_fn.left_half
    simp only [hm0, hr, bind, Except.bind, if_neg hne]
  · intro fuel hf
    obtain ⟨k, rfl⟩ : ∃ k, fuel = Nat.clog 2 dist + k := ⟨fuel - Nat.clog 2 dist, by omega⟩
    exact stable_partition_fn.impl_unbuffered_fuel_add pred proj _ k xs first last dist hdepth

theorem impl_unbuffered_recursion_depth_witness :
    2 ≤ 4 ∧
      stable_partition_fn.impl_unbuffered isEven id (Nat.clog 2 4) [1, 2, 1, 2] 0 3 4
        ≠ .error .fuel ∧
      (4 ≤ 4 → 2 ≤ 4 - 4 / 2 ∧ 4 - 4 / 2 = (4 + 1) / 2) :=
  ⟨by decide,
    (impl_unbuffered_recursion_depth isEven id [1, 2, 1, 2] 0 3 4 (by decide)).2.2.1,
    (impl_unbuffered_recursion_depth isEven id [1, 2, 1, 2] 0 3 4 (by decide)).2.1⟩

/-- The run of `stable_partition` on a sequence that is not returned early nests at most
`⌈log₂ n⌉` invocations of `impl_unbuffered`, `n` being the number of elements of the trimmed
closed range `[first, last]`. -/
theorem stable_partition_depth {α β : Type} (pred : β → Bool) (proj : α → β) (xs : List α)
    (first last : Nat)
    (hf : stable_partition_fn.trim_front pred proj xs.length xs 0 = .ok (Sum.inr first))
    (hb : stable_partition_fn.trim_back pred proj xs first xs.length = .ok (Sum.inr last)) :
    stable_partition pred proj xs =
      stable_partition_fn.impl_unbuffered pred proj (Nat.clog 2 (distance first last + 1)) xs
        first last (distance first last + 1) := by
  have hlt := (stable_partition_fn.trim_front_spec pred proj _ _ _).2 first hf (Nat.zero_le _)
  have hlt2 := (stable_partition_fn.trim_back_spec pred proj _ _ _).2 last hb hlt
  have h2 : 2 ≤ distance first last + 1 := by unfold distance; omega
  have hd := stable_partition_fn.impl_unbuffered_depth pred proj _ xs first last _ h2
    (Nat.le_refl _)
  have hle : Nat.clog 2 (distance first last + 1) ≤ distance first last + 1 :=
    (Nat.le_pow_iff_clog_le (by decide)).1 (Nat.lt_two_pow _).le
  obtain ⟨k, hk⟩ : ∃ k, distance first last + 1 = Nat.clog 2 (distance first last + 1) + k :=
    ⟨distance first last + 1 - Nat.clog 2 (distance first last + 1), by omega⟩
  have e := stable_partition_fn.impl_unbuffered_fuel_add pred proj _ k xs first last _ hd
  rw [← hk] at e
  rw [← e]
  unfold stable_partition stable_partition_fn.impl
  rw [List.drop_zero, hf]
  simp only [bind, Except.bind, hb]

/-- C17 (the code departs from the claim): with the predicate "is even", the invocation
`impl_unbuffered(4, 6, 4)` that `stable_partition` makes on `[1, 3, 5, 2, 7, 9, 4, 11]`
starts its forward scan at `middle = 6 = last` and stops at position 7, after `last`; on
`[1, 3, 5, 2, 7, 9, 4]` the same scan reads position 7, which is past the end, and the run
of `impl_unbuffered(0, 6, 7)` that `impl` starts has no defined result. -/
theorem forward_scan_leaves_range :
    stable_partition_calls isEven id [1, 3, 5, 2, 7, 9, 4, 11]
        = .ok (([2, 1, 3, 5, 7, 9, 11, 4], 1),
            [⟨[1, 3, 5, 2, 7, 9, 4, 11], 0, 6, 7⟩, ⟨[1, 3, 5, 2, 7, 9, 4, 11], 4, 6, 4⟩,
              ⟨[1, 3, 5, 2, 7, 9, 4, 11], 7, 6, 2⟩]) ∧
      stable_partition_fn.scan_fwd isEven id 6 ([1, 3, 5, 2, 7, 9, 4, 11].drop 6) 6
        = .ok (some 7) ∧
      stable_partition_fn.scan_fwd isEven id 6 ([1, 3, 5, 2, 7, 9, 4].drop 6) 6
        = .error .outOfRange ∧
      stable_partition_fn.impl_unbuffered isEven id 7 [1, 3, 5, 2, 7, 9, 4] 0 6 7
        = .error .outOfRange :=
  ⟨rfl, rfl, rfl, rfl⟩

end nano
